import Mathlib

/-!
Verification of the client-side audio-comparison pipeline of the
pronunciation-trainer repository: pitch extraction (AMDF with an energy
gate), contour trimming and normalization, and DTW alignment.

The embedding is shallow and exact, in two layers.  The rational layer
models JavaScript numbers as ℚ and machine integers as ℕ; `Math.floor`
applied to products/quotients of integers is ℕ floor division; an array
read `a[k]` is `List.getD a k 0`.  Because the source can read past the end
of the buffer (the out-of-range reads are exhibited over
`amdfReadIndices`), a second layer (`JSVal`, further below) models the
JavaScript number line faithfully — NaN from arithmetic on `undefined`
reads, `Infinity` from division by zero — with exact finite values; a
bridge identifies the two layers on frames whose reads stay in bounds.
The source's `for` loop over frame starts does not terminate when the hop
size is 0 (sample rates below 50); the embedding returns no frames in that
case, and theorems about frame counts assume a sample rate of at least 50.
-/

namespace PronunciationCoach

/-- A decoded audio buffer: one channel of samples plus a sample rate,
mirroring the fields of the Web Audio `AudioBuffer` the source reads
(`getChannelData(0)` and `sampleRate`). -/
structure AudioBuffer where
  samples : List ℚ
  sampleRate : ℕ

/-- The sub-sampled in-frame offsets `j = 0, 4, 8, …` with `j < winSize`,
as iterated by `for (let j = 0; j < winSize; j += 4)`. -/
def subIdx (winSize : ℕ) : List ℕ :=
  List.range' 0 ((winSize + 3) / 4) 4

/-- Frame energy: mean absolute amplitude over the sub-sampled window,
`energy += Math.abs(channelData[i + j]); energy /= (winSize / 4)`.
The divisor `winSize / 4` is a float division in the source, hence exact
rational division here. -/
def frameEnergy (data : List ℚ) (i winSize : ℕ) : ℚ :=
  ((subIdx winSize).map (fun j => |data.getD (i + j) 0|)).sum / ((winSize : ℚ) / 4)

/-- AMDF value at lag `p`:
`amdf += Math.abs(channelData[i + j] - channelData[i + j + p])`. -/
def amdf (data : List ℚ) (i winSize p : ℕ) : ℚ :=
  ((subIdx winSize).map
    (fun j => |data.getD (i + j) 0 - data.getD (i + j + p) 0|)).sum

/-- The candidate lags `p = minP, minP+1, …, maxP` of
`for (let p = minP; p <= maxP; p++)`. -/
def lagRange (minP maxP : ℕ) : List ℕ :=
  List.range' minP (maxP + 1 - minP) 1

/-- One iteration of the lag search,
`if (amdf < minAmdf) { minAmdf = amdf; bestPeriod = p; }`.  The running
minimum starts as `Infinity`, which every rational AMDF value beats, so it
is modelled as `Option ℚ` with `none` for the initial `Infinity`. -/
def lagStep (data : List ℚ) (i winSize : ℕ) (acc : ℕ × Option ℚ) (p : ℕ) :
    ℕ × Option ℚ :=
  let a := amdf data i winSize p
  match acc.2 with
  | none => (p, some a)
  | some m => if a < m then (p, some a) else acc

/-- The lag search: `bestPeriod = 0; minAmdf = Infinity;` then the iteration
above over the whole lag range; the result is the final `bestPeriod`. -/
def bestLag (data : List ℚ) (i winSize minP maxP : ℕ) : ℕ :=
  ((lagRange minP maxP).foldl (lagStep data i winSize)
    ((0 : ℕ), (none : Option ℚ))).1

/-- One iteration of the frame loop: the energy gate pushes 0 below the
silence threshold `0.01`; otherwise the AMDF pitch estimate
`f0 = sampleRate / bestPeriod` is pushed.  (When `bestPeriod = 0`, which
requires `sampleRate < 600`, the source produces `Infinity`; rational
division yields 0 there.) -/
def framePitch (data : List ℚ) (sampleRate i winSize minP maxP : ℕ) : ℚ :=
  if frameEnergy data i winSize < 1 / 100 then 0
  else (sampleRate : ℚ) / (bestLag data i winSize minP maxP : ℚ)

/-- The loop `for (let i = …; i < channelData.length - winSize; i += step)`
collecting the frame start indices, written with a fuel argument so the
recursion is structural; `len` units of fuel are enough for every run that
terminates (the loop advances by `step ≥ 1` at most `len` times). -/
def frameLoop (len winSize step : ℕ) : ℕ → ℕ → List ℕ
  | 0, _ => []
  | Nat.succ fuel, i =>
    if i + winSize < len then i :: frameLoop len winSize step fuel (i + step)
    else []

/-- The frame start indices of
`for (let i = 0; i < channelData.length - winSize; i += step)`.
The loop guard `i < length - winSize` (JavaScript subtraction, possibly
negative) is `i + winSize < len` over ℕ.  A zero step would loop forever in
the source; the embedding returns no frames then. -/
def frameStarts (len winSize step i : ℕ) : List ℕ :=
  if step = 0 then [] else frameLoop len winSize step len i

/-- `extractPitch`: the fused energy-gate / AMDF pass over all frames.
`step = Math.floor(sampleRate * 0.02)`, `winSize = Math.floor(sampleRate * 0.04)`,
`minP = Math.floor(sampleRate / 600)`, `maxP = Math.floor(sampleRate / 75)`,
embedded with ℕ floor division. -/
def extractPitch (buffer : AudioBuffer) : List ℚ :=
  let data := buffer.samples
  let sampleRate := buffer.sampleRate
  let step := sampleRate * 2 / 100
  let winSize := sampleRate * 4 / 100
  let minP := sampleRate / 600
  let maxP := sampleRate / 75
  (frameStarts data.length winSize step 0).map
    (fun i => framePitch data sampleRate i winSize minP maxP)

/-- Every sample index `i + j + p` dereferenced during the AMDF lag search
(`channelData[i + j + p]`): over each frame start `i` that passes the energy
gate, each lag `p` in the search range and each sub-sampled offset `j`. -/
def amdfReadIndices (buffer : AudioBuffer) : List ℕ :=
  let data := buffer.samples
  let sampleRate := buffer.sampleRate
  let step := sampleRate * 2 / 100
  let winSize := sampleRate * 4 / 100
  let minP := sampleRate / 600
  let maxP := sampleRate / 75
  (frameStarts data.length winSize step 0).flatMap
    (fun i =>
      if frameEnergy data i winSize < 1 / 100 then []
      else (lagRange minP maxP).flatMap
        (fun p => (subIdx winSize).map (fun j => i + j + p)))

/-- The run of zeros at the head of a list: the loop
`while (start < arr.length && arr[start] === 0) start++`. -/
def leadZeroCount : List ℚ → ℕ
  | [] => 0
  | x :: xs => if x = 0 then leadZeroCount xs + 1 else 0

/-- `trimPitch`: scan a zero run from each end; if the scans cross
(all-zero input) return `[]`, else `arr.slice(start, end + 1)`.
`start` is the leading-zero count, `end` is `arr.length - 1 -` the
trailing-zero count, and the crossing test `start > end` holds exactly when
`arr.length ≤ start`; `slice(start, end + 1)` keeps
`end + 1 - start = length - trailing - start` elements from `start`. -/
def trimPitch (arr : List ℚ) : List ℚ :=
  let start := leadZeroCount arr
  let trailing := leadZeroCount arr.reverse
  if arr.length ≤ start then []
  else (arr.drop start).take (arr.length - trailing - start)

/-- `normalize`: collect the values `> 0`; if none, return the input;
otherwise rescale with `range = max - min || 1` (JavaScript `||`: the
range is 1 exactly when `max - min` is 0).  `Math.min(...nonZeros)` /
`Math.max(...nonZeros)` over a nonempty list are left folds of `min` / `max`
from the first element. -/
def normalize (arr : List ℚ) : List ℚ :=
  let nonZeros := arr.filter (fun v => decide (0 < v))
  match nonZeros with
  | [] => arr
  | x :: xs =>
    let mn := xs.foldl min x
    let mx := xs.foldl max x
    let range := if mx - mn = 0 then 1 else mx - mn
    arr.map (fun v => if v = 0 then 0 else ((v - mn) / range) * 80 + 10)

/-- Modelled from the claim's words, for comparison with `normalize`:
identical except that the range guard is `range = max(max - min, 1)`
instead of the source's `max - min || 1`. -/
def normalizeClaimed (arr : List ℚ) : List ℚ :=
  let nonZeros := arr.filter (fun v => decide (0 < v))
  match nonZeros with
  | [] => arr
  | x :: xs =>
    let mn := xs.foldl min x
    let mx := xs.foldl max x
    let range := max (mx - mn) 1
    arr.map (fun v => if v = 0 then 0 else ((v - mn) / range) * 80 + 10)

/-- Modelled from the claim's words, for comparison with `trimPitch`:
drop the leading run of exact zeros, then the trailing run. -/
def trimClaimed (arr : List ℚ) : List ℚ :=
  (((arr.dropWhile (fun v => decide (v = 0))).reverse.dropWhile
      (fun v => decide (v = 0))).reverse)

/-- Row 0 of the DTW cumulative-cost matrix:
`cost[0][0] = |ref[0] - user[0]|` and
`cost[0][j] = cost[0][j-1] + |ref[0] - user[j]|`. -/
def costRow0 (ref user : List ℚ) : ℕ → ℚ
  | 0 => |ref.getD 0 0 - user.getD 0 0|
  | Nat.succ j => costRow0 ref user j + |ref.getD 0 0 - user.getD (j + 1) 0|

/-- Row `i + 1` of the cost matrix, given row `i` as `prev`:
`cost[i+1][0] = cost[i][0] + |ref[i+1] - user[0]|` and
`cost[i+1][j+1] = |ref[i+1] - user[j+1]| + min(cost[i][j+1], cost[i+1][j], cost[i][j])`. -/
def costRow (ref user : List ℚ) (prev : ℕ → ℚ) (i : ℕ) : ℕ → ℚ
  | 0 => prev 0 + |ref.getD (i + 1) 0 - user.getD 0 0|
  | Nat.succ j =>
    |ref.getD (i + 1) 0 - user.getD (j + 1) 0| +
      min (min (prev (j + 1)) (costRow ref user prev i j)) (prev j)

/-- The DTW cumulative-cost matrix `cost[i][j]` of the source, assembled
row by row so the recursion is structural. -/
def cost (ref user : List ℚ) : ℕ → ℕ → ℚ
  | 0 => costRow0 ref user
  | Nat.succ i => costRow ref user (cost ref user i) i

/-- The backtracking loop at the start row `i = 0`: only the user index
decreases (`if (i === 0) j--`), so the visited pairs are
`(0, j), (0, j-1), …, (0, 0)`. -/
def backtrackRow0 : ℕ → List (ℕ × ℕ)
  | 0 => [(0, 0)]
  | Nat.succ j => (0, j + 1) :: backtrackRow0 j

/-- The backtracking loop at reference row `i + 1`, given the rows below as
`prevB`: at the start column only the reference index decreases
(`else if (j === 0) i--`); otherwise the move follows
`min = Math.min(cost[i-1][j], cost[i][j-1], cost[i-1][j-1])` with tie order
diagonal, then reference-step, then user-step. -/
def backtrackRow (ref user : List ℚ) (prevB : ℕ → List (ℕ × ℕ)) (i : ℕ) :
    ℕ → List (ℕ × ℕ)
  | 0 => (i + 1, 0) :: prevB 0
  | Nat.succ j =>
    let up := cost ref user i (j + 1)
    let left := cost ref user (i + 1) j
    let diag := cost ref user i j
    let m := min (min up left) diag
    (i + 1, j + 1) ::
      (if m = diag then prevB j
       else if m = up then prevB (j + 1)
       else backtrackRow ref user prevB i j)

/-- The backtracking loop of the source, producing the visited pairs
end-first (the source's `path` before `path.reverse()`), assembled row by
row so the recursion is structural. -/
def backtrack (ref user : List ℚ) : ℕ → ℕ → List (ℕ × ℕ)
  | 0 => backtrackRow0
  | Nat.succ i => backtrackRow ref user (backtrack ref user i) i

/-- The Alignment Path: the backtracked pairs from `(N-1, M-1)`, reversed
into start-to-end order (`path.reverse()`). -/
def dtwPath (ref user : List ℚ) : List (ℕ × ℕ) :=
  (backtrack ref user (ref.length - 1) (user.length - 1)).reverse

/-- `performDTW`: degenerate inputs give `Array(N).fill(0)`; otherwise the
aligned contour starts as `N` zeros and each path pair `(r, u)` writes
`aligned[r] = user[u]` in path order (later pairs overwrite). -/
def performDTW (ref user : List ℚ) : List ℚ :=
  if ref.length = 0 ∨ user.length = 0 then List.replicate ref.length 0
  else
    (dtwPath ref user).foldl
      (fun acc p => acc.set p.1 (user.getD p.2 0))
      (List.replicate ref.length 0)

/-- The DSP core of `analyzeAudio` (steps A–D): extract both pitch
contours, normalize, trim, then align the user contour to the reference
timeline.  Returns the trimmed/normalized reference contour (plotted as
`pitchCurveReference`) and the aligned user contour (`pitchCurveUser`);
positions are the list indices. -/
def analyzeContours (refBuf userBuf : AudioBuffer) : List ℚ × List ℚ :=
  let refTrimmed := trimPitch (normalize (extractPitch refBuf))
  let userTrimmed := trimPitch (normalize (extractPitch userBuf))
  (refTrimmed, performDTW refTrimmed userTrimmed)

/-! ## JavaScript number semantics

The rational embedding above reads 0 at an out-of-bounds index and yields 0
for a division by zero; real JavaScript instead yields `undefined` (NaN
once it enters arithmetic) and `Infinity`.  The model below keeps finite
values exact (as ℚ) and adds the special values, with IEEE-754 propagation
rules for every operation the pitch path uses, so the error path the
source actually takes — a NaN-poisoned lag search that leaves
`bestPeriod = 0` and pushes `Infinity`, which `normalize` then turns into
NaN — can be stated and evaluated. -/

/-- A JavaScript number as the DSP module computes with it: an exact finite
value, a signed infinity, or NaN (also the result of arithmetic on the
`undefined` produced by an out-of-bounds array read). -/
inductive JSVal where
  | num : ℚ → JSVal
  | inf : JSVal
  | neginf : JSVal
  | nan : JSVal
deriving DecidableEq

/-- JavaScript unary minus. -/
def jsneg : JSVal → JSVal
  | JSVal.num q => JSVal.num (-q)
  | JSVal.inf => JSVal.neginf
  | JSVal.neginf => JSVal.inf
  | JSVal.nan => JSVal.nan

/-- JavaScript addition, exact on finite values. -/
def jsadd : JSVal → JSVal → JSVal
  | JSVal.num a, JSVal.num b => JSVal.num (a + b)
  | JSVal.num _, JSVal.inf => JSVal.inf
  | JSVal.num _, JSVal.neginf => JSVal.neginf
  | JSVal.inf, JSVal.num _ => JSVal.inf
  | JSVal.inf, JSVal.inf => JSVal.inf
  | JSVal.inf, JSVal.neginf => JSVal.nan
  | JSVal.neginf, JSVal.num _ => JSVal.neginf
  | JSVal.neginf, JSVal.inf => JSVal.nan
  | JSVal.neginf, JSVal.neginf => JSVal.neginf
  | JSVal.nan, _ => JSVal.nan
  | _, JSVal.nan => JSVal.nan

/-- JavaScript subtraction (`a - b` is `a + (-b)` in IEEE-754). -/
def jssub (a b : JSVal) : JSVal := jsadd a (jsneg b)

/-- JavaScript multiplication. -/
def jsmul : JSVal → JSVal → JSVal
  | JSVal.num a, JSVal.num b => JSVal.num (a * b)
  | JSVal.num a, JSVal.inf =>
    if a = 0 then JSVal.nan else if 0 < a then JSVal.inf else JSVal.neginf
  | JSVal.num a, JSVal.neginf =>
    if a = 0 then JSVal.nan else if 0 < a then JSVal.neginf else JSVal.inf
  | JSVal.inf, JSVal.num b =>
    if b = 0 then JSVal.nan else if 0 < b then JSVal.inf else JSVal.neginf
  | JSVal.neginf, JSVal.num b =>
    if b = 0 then JSVal.nan else if 0 < b then JSVal.neginf else JSVal.inf
  | JSVal.inf, JSVal.inf => JSVal.inf
  | JSVal.inf, JSVal.neginf => JSVal.neginf
  | JSVal.neginf, JSVal.inf => JSVal.neginf
  | JSVal.neginf, JSVal.neginf => JSVal.inf
  | JSVal.nan, _ => JSVal.nan
  | _, JSVal.nan => JSVal.nan

/-- JavaScript division: a positive finite value over 0 is `Infinity`,
`0/0` is NaN, a finite value over an infinity is 0. -/
def jsdiv : JSVal → JSVal → JSVal
  | JSVal.num a, JSVal.num b =>
    if b = 0 then
      (if a = 0 then JSVal.nan else if 0 < a then JSVal.inf else JSVal.neginf)
    else JSVal.num (a / b)
  | JSVal.num _, JSVal.inf => JSVal.num 0
  | JSVal.num _, JSVal.neginf => JSVal.num 0
  | JSVal.inf, JSVal.num b => if 0 ≤ b then JSVal.inf else JSVal.neginf
  | JSVal.neginf, JSVal.num b => if 0 ≤ b then JSVal.neginf else JSVal.inf
  | JSVal.inf, JSVal.inf => JSVal.nan
  | JSVal.inf, JSVal.neginf => JSVal.nan
  | JSVal.neginf, JSVal.inf => JSVal.nan
  | JSVal.neginf, JSVal.neginf => JSVal.nan
  | JSVal.nan, _ => JSVal.nan
  | _, JSVal.nan => JSVal.nan

/-- `Math.abs`. -/
def jsabs : JSVal → JSVal
  | JSVal.num q => JSVal.num |q|
  | JSVal.inf => JSVal.inf
  | JSVal.neginf => JSVal.inf
  | JSVal.nan => JSVal.nan

/-- JavaScript `<`: false whenever NaN is involved. -/
def jslt : JSVal → JSVal → Bool
  | JSVal.nan, _ => false
  | _, JSVal.nan => false
  | JSVal.num a, JSVal.num b => decide (a < b)
  | JSVal.num _, JSVal.inf => true
  | JSVal.num _, JSVal.neginf => false
  | JSVal.inf, _ => false
  | JSVal.neginf, JSVal.neginf => false
  | JSVal.neginf, _ => true

/-- JavaScript `<=`: false whenever NaN is involved. -/
def jsle : JSVal → JSVal → Bool
  | JSVal.nan, _ => false
  | _, JSVal.nan => false
  | JSVal.num a, JSVal.num b => decide (a ≤ b)
  | JSVal.num _, JSVal.inf => true
  | JSVal.num _, JSVal.neginf => false
  | JSVal.inf, JSVal.inf => true
  | JSVal.inf, _ => false
  | JSVal.neginf, _ => true

/-- JavaScript strict equality `===` on numbers: NaN equals nothing, not
even itself. -/
def jseq : JSVal → JSVal → Bool
  | JSVal.num a, JSVal.num b => decide (a = b)
  | JSVal.inf, JSVal.inf => true
  | JSVal.neginf, JSVal.neginf => true
  | _, _ => false

/-- Binary `Math.min`: NaN-propagating, otherwise the smaller argument. -/
def jsminB : JSVal → JSVal → JSVal
  | JSVal.nan, _ => JSVal.nan
  | _, JSVal.nan => JSVal.nan
  | a, b => if jslt a b then a else b

/-- Binary `Math.max`: NaN-propagating, otherwise the larger argument. -/
def jsmaxB : JSVal → JSVal → JSVal
  | JSVal.nan, _ => JSVal.nan
  | _, JSVal.nan => JSVal.nan
  | a, b => if jslt b a then a else b

/-- An array read `channelData[k]`: in range it is the stored (finite)
sample; past the end it is `undefined`, which every arithmetic use here
coerces to NaN. -/
def jsread (data : List ℚ) (k : ℕ) : JSVal :=
  match data[k]? with
  | some q => JSVal.num q
  | none => JSVal.nan

/-- `frameEnergy` under JavaScript semantics: the accumulating loop is a
left fold of additions starting from 0, divided by `winSize / 4`. -/
def frameEnergyJS (data : List ℚ) (i winSize : ℕ) : JSVal :=
  jsdiv
    (((subIdx winSize).map (fun j => jsabs (jsread data (i + j)))).foldl
      jsadd (JSVal.num 0))
    (JSVal.num ((winSize : ℚ) / 4))

/-- `amdf` under JavaScript semantics: one out-of-bounds read makes the
whole sum NaN. -/
def amdfJS (data : List ℚ) (i winSize p : ℕ) : JSVal :=
  ((subIdx winSize).map
    (fun j => jsabs (jssub (jsread data (i + j)) (jsread data (i + j + p))))).foldl
    jsadd (JSVal.num 0)

/-- The lag-search iteration under JavaScript semantics: a NaN (or
infinite) AMDF sum never satisfies `amdf < minAmdf`, so it leaves
`bestPeriod` and `minAmdf` unchanged. -/
def lagStepJS (data : List ℚ) (i winSize : ℕ) (acc : ℕ × Option ℚ) (p : ℕ) :
    ℕ × Option ℚ :=
  match amdfJS data i winSize p, acc.2 with
  | JSVal.num a, none => (p, some a)
  | JSVal.num a, some m => if a < m then (p, some a) else acc
  | _, _ => acc

/-- The selected lag under JavaScript semantics; it stays at the initial 0
when every candidate's AMDF sum is NaN-poisoned. -/
def bestLagJS (data : List ℚ) (i winSize minP maxP : ℕ) : ℕ :=
  ((lagRange minP maxP).foldl (lagStepJS data i winSize)
    ((0 : ℕ), (none : Option ℚ))).1

/-- The frame value under JavaScript semantics:
`f0 = sampleRate / bestPeriod` is `Infinity` when `bestPeriod` is 0. -/
def framePitchJS (data : List ℚ) (sampleRate i winSize minP maxP : ℕ) : JSVal :=
  if jslt (frameEnergyJS data i winSize) (JSVal.num (1 / 100)) then JSVal.num 0
  else jsdiv (JSVal.num (sampleRate : ℚ))
    (JSVal.num (bestLagJS data i winSize minP maxP : ℚ))

/-- `extractPitch` under JavaScript semantics (same frame loop, JavaScript
per-frame values). -/
def extractPitchJS (buffer : AudioBuffer) : List JSVal :=
  let data := buffer.samples
  let sampleRate := buffer.sampleRate
  let step := sampleRate * 2 / 100
  let winSize := sampleRate * 4 / 100
  let minP := sampleRate / 600
  let maxP := sampleRate / 75
  (frameStarts data.length winSize step 0).map
    (fun i => framePitchJS data sampleRate i winSize minP maxP)

/-- `normalize` under JavaScript semantics.  `Infinity` passes the `v > 0`
filter; `Infinity - Infinity` is NaN; `range || 1` replaces a falsy range
(0 or NaN) by 1; the rescaling arithmetic then propagates NaN into the
output. -/
def normalizeJS (arr : List JSVal) : List JSVal :=
  let nonZeros := arr.filter (fun v => jslt (JSVal.num 0) v)
  match nonZeros with
  | [] => arr
  | x :: xs =>
    let mn := xs.foldl jsminB x
    let mx := xs.foldl jsmaxB x
    let range := jssub mx mn
    let range1 := if range = JSVal.num 0 ∨ range = JSVal.nan then JSVal.num 1
      else range
    arr.map (fun v => if jseq v (JSVal.num 0) then JSVal.num 0
      else jsadd (jsmul (jsdiv (jssub v mn) range1) (JSVal.num 80)) (JSVal.num 10))

/-- The zero-run scan under JavaScript semantics: `arr[start] === 0` is
false for NaN and Infinity, so they are never trimmed. -/
def leadZeroCountJS : List JSVal → ℕ
  | [] => 0
  | x :: xs => if jseq x (JSVal.num 0) then leadZeroCountJS xs + 1 else 0

/-- `trimPitch` under JavaScript semantics (same scan-and-slice shape). -/
def trimPitchJS (arr : List JSVal) : List JSVal :=
  let start := leadZeroCountJS arr
  let trailing := leadZeroCountJS arr.reverse
  if arr.length ≤ start then []
  else (arr.drop start).take (arr.length - trailing - start)

/-- The reference-side contour of `analyzeAudio` under JavaScript
semantics: extract, normalize, then trim — the values plotted as
`pitchCurveReference`. -/
def refContourJS (buffer : AudioBuffer) : List JSVal :=
  trimPitchJS (normalizeJS (extractPitchJS buffer))

/-! ## Helper lemmas -/

/-- Writing path entries into the aligned buffer never changes its length. -/
theorem length_foldl_set (user : List ℚ) :
    ∀ (pth : List (ℕ × ℕ)) (init : List ℚ),
      (pth.foldl (fun acc p => acc.set p.1 (user.getD p.2 0)) init).length
        = init.length
  | [], _ => rfl
  | p :: pth, init => by
    rw [List.foldl_cons, length_foldl_set user pth, List.length_set]

/-- With positive step and enough fuel, the frame loop starting at `i`
yields `floor((len - winSize - i - 1)/step) + 1` frames when the guard
holds at `i`, and none otherwise. -/
theorem frameLoop_length (len winSize step : ℕ) (hstep : 0 < step) :
    ∀ (fuel i : ℕ), len ≤ winSize + i + fuel * step →
      (frameLoop len winSize step fuel i).length =
        if i + winSize < len then (len - winSize - i - 1) / step + 1 else 0
  | 0, i, h => by
    rw [frameLoop, if_neg (by omega)]
    rfl
  | fuel + 1, i, h => by
    rw [frameLoop]
    by_cases hc : i + winSize < len
    · have hmul : winSize + i + (fuel + 1) * step
          = winSize + (i + step) + fuel * step := by ring
      rw [if_pos hc, if_pos hc, List.length_cons,
        frameLoop_length len winSize step hstep fuel (i + step)
          (le_trans h (le_of_eq hmul))]
      by_cases hc2 : i + step + winSize < len
      · rw [if_pos hc2]
        have h1 : len - winSize - i - 1 = (len - winSize - (i + step) - 1) + step := by
          omega
        rw [h1, Nat.add_div_right _ hstep]
      · rw [if_neg hc2, Nat.div_eq_of_lt (by omega)]
    · rw [if_neg hc, if_neg hc]
      rfl

/-- The frame-start list from 0 has the closed-form length: `len` units of
fuel are enough because the loop advances by `step ≥ 1` each iteration. -/
theorem frameStarts_length (len winSize step : ℕ) (hstep : 0 < step)
    (hw : winSize < len) :
    (frameStarts len winSize step 0).length = (len - winSize - 1) / step + 1 := by
  unfold frameStarts
  rw [if_neg (by omega)]
  have hfuel : len ≤ winSize + 0 + len * step :=
    le_trans (Nat.le_mul_of_pos_right len hstep) (by omega)
  rw [frameLoop_length len winSize step hstep len 0 hfuel, if_pos (by omega)]
  norm_num

/-- A lag-search iteration keeps the current best lag or switches to the
scanned lag. -/
theorem lagStep_fst (data : List ℚ) (i winSize p : ℕ) (acc : ℕ × Option ℚ) :
    (lagStep data i winSize acc p).1 = p ∨
      (lagStep data i winSize acc p).1 = acc.1 := by
  unfold lagStep
  rcases hacc : acc.2 with _ | m
  · left
    rfl
  · dsimp only
    split
    · left
      rfl
    · right
      rfl

/-- The best lag after folding the search over any lag list is the initial
best lag or a member of the list. -/
theorem foldl_lagStep_mem (data : List ℚ) (i winSize : ℕ) :
    ∀ (L : List ℕ) (acc : ℕ × Option ℚ),
      (L.foldl (lagStep data i winSize) acc).1 = acc.1 ∨
        (L.foldl (lagStep data i winSize) acc).1 ∈ L
  | [], _ => Or.inl rfl
  | p :: L, acc => by
    rw [List.foldl_cons]
    rcases foldl_lagStep_mem data i winSize L (lagStep data i winSize acc p)
      with h | h
    · rw [h]
      rcases lagStep_fst data i winSize p acc with h1 | h1
      · exact Or.inr (by rw [h1]; exact List.mem_cons_self _ _)
      · exact Or.inl h1
    · exact Or.inr (List.mem_cons_of_mem _ h)

/-- With a nonempty lag range the selected lag lies inside it. -/
theorem bestLag_mem (data : List ℚ) (i winSize minP maxP : ℕ)
    (hle : minP ≤ maxP) :
    minP ≤ bestLag data i winSize minP maxP ∧
      bestLag data i winSize minP maxP ≤ maxP := by
  have hmem : bestLag data i winSize minP maxP ∈ lagRange minP maxP := by
    unfold bestLag lagRange
    have hn : maxP + 1 - minP = (maxP - minP) + 1 := by omega
    rw [hn, List.range'_succ, List.foldl_cons]
    rcases foldl_lagStep_mem data i winSize (List.range' (minP + 1) (maxP - minP) 1)
      (lagStep data i winSize ((0 : ℕ), (none : Option ℚ)) minP) with h | h
    · rw [h]
      exact List.mem_cons_self _ _
    · exact List.mem_cons_of_mem _ h
  unfold lagRange at hmem
  rw [List.mem_range'_1] at hmem
  omega

/-- Every raw contour value is 0 (a silent frame) or the AMDF estimate
`sampleRate / bestLag` for a voiced frame. -/
theorem framePitch_cases (data : List ℚ) (sr i winSize minP maxP : ℕ) :
    framePitch data sr i winSize minP maxP = 0 ∨
      framePitch data sr i winSize minP maxP
        = (sr : ℚ) / (bestLag data i winSize minP maxP : ℚ) := by
  unfold framePitch
  split
  · exact Or.inl rfl
  · exact Or.inr rfl

/-- The leading-zero scan counts the run removed by `dropWhile`. -/
theorem dropWhile_eq_drop_leadZeroCount :
    ∀ arr : List ℚ,
      arr.dropWhile (fun v => decide (v = 0)) = arr.drop (leadZeroCount arr)
  | [] => rfl
  | x :: xs => by
    rw [List.dropWhile_cons, leadZeroCount]
    by_cases hx : x = 0
    · rw [if_pos (by simp [hx]), if_pos hx, dropWhile_eq_drop_leadZeroCount xs]
      rfl
    · rw [if_neg (by simp [hx]), if_neg hx]
      rfl

/-- The leading-zero run is at most the whole list. -/
theorem leadZeroCount_le_length : ∀ arr : List ℚ, leadZeroCount arr ≤ arr.length
  | [] => le_refl 0
  | x :: xs => by
    rw [leadZeroCount]
    by_cases hx : x = 0
    · rw [if_pos hx, List.length_cons]
      exact Nat.succ_le_succ (leadZeroCount_le_length xs)
    · rw [if_neg hx]
      exact Nat.zero_le _

/-- The leading-zero run covers the whole list exactly when every element
is zero. -/
theorem leadZeroCount_eq_length_iff :
    ∀ arr : List ℚ, leadZeroCount arr = arr.length ↔ ∀ v ∈ arr, v = 0
  | [] => by simp [leadZeroCount]
  | x :: xs => by
    rw [leadZeroCount, List.length_cons]
    by_cases hx : x = 0
    · rw [if_pos hx]
      simp only [Nat.succ_inj, List.mem_cons]
      rw [leadZeroCount_eq_length_iff xs]
      constructor
      · intro h v hv
        rcases hv with hv | hv
        · rw [hv, hx]
        · exact h v hv
      · intro h v hv
        exact h v (Or.inr hv)
    · rw [if_neg hx]
      constructor
      · intro h
        exact absurd h.symm (Nat.succ_ne_zero _)
      · intro h
        exact absurd (h x (List.mem_cons_self _ _)) hx

/-- Appending after a list whose zero run stops strictly inside it does not
change the zero run. -/
theorem leadZeroCount_append (ys : List ℚ) :
    ∀ xs : List ℚ, leadZeroCount xs < xs.length →
      leadZeroCount (xs ++ ys) = leadZeroCount xs
  | [], h => absurd h (by simp)
  | x :: xs, h => by
    rw [List.cons_append, leadZeroCount, leadZeroCount]
    by_cases hx : x = 0
    · rw [if_pos hx, if_pos hx]
      rw [leadZeroCount, if_pos hx, List.length_cons] at h
      rw [leadZeroCount_append ys xs (by omega)]
    · rw [if_neg hx, if_neg hx]

/-- One ascending step of an alignment path: both coordinates are
non-decreasing and each advances by at most 1. -/
def pathStep (a b : ℕ × ℕ) : Prop :=
  a.1 ≤ b.1 ∧ b.1 ≤ a.1 + 1 ∧ a.2 ≤ b.2 ∧ b.2 ≤ a.2 + 1

instance (a b : ℕ × ℕ) : Decidable (pathStep a b) := by
  unfold pathStep
  infer_instance

theorem backtrack_zero_zero (ref user : List ℚ) :
    backtrack ref user 0 0 = [(0, 0)] := rfl

theorem backtrack_zero_succ (ref user : List ℚ) (j : ℕ) :
    backtrack ref user 0 (j + 1) = (0, j + 1) :: backtrack ref user 0 j := rfl

theorem backtrack_succ_zero (ref user : List ℚ) (i : ℕ) :
    backtrack ref user (i + 1) 0 = (i + 1, 0) :: backtrack ref user i 0 := rfl

/-- The backtracking step from an interior cell moves to the diagonal, the
previous reference row, or the previous user column. -/
theorem backtrack_succ_succ_cases (ref user : List ℚ) (i j : ℕ) :
    backtrack ref user (i + 1) (j + 1)
        = (i + 1, j + 1) :: backtrack ref user i j ∨
      backtrack ref user (i + 1) (j + 1)
        = (i + 1, j + 1) :: backtrack ref user i (j + 1) ∨
      backtrack ref user (i + 1) (j + 1)
        = (i + 1, j + 1) :: backtrack ref user (i + 1) j := by
  show backtrackRow ref user (backtrack ref user i) i (j + 1) = _ ∨
    backtrackRow ref user (backtrack ref user i) i (j + 1) = _ ∨
    backtrackRow ref user (backtrack ref user i) i (j + 1) = _
  rw [backtrackRow]
  split
  · exact Or.inl rfl
  · split
    · exact Or.inr (Or.inl rfl)
    · exact Or.inr (Or.inr rfl)

/-- Every backtrack list starts at its own cell. -/
theorem backtrack_head (ref user : List ℚ) :
    ∀ i j, ∃ t, backtrack ref user i j = (i, j) :: t := by
  intro i j
  cases i with
  | zero =>
    cases j with
    | zero => exact ⟨[], rfl⟩
    | succ j => exact ⟨backtrackRow0 j, rfl⟩
  | succ i =>
    cases j with
    | zero => exact ⟨backtrack ref user i 0, rfl⟩
    | succ j =>
      rcases backtrack_succ_succ_cases ref user i j with h | h | h
      · exact ⟨_, h⟩
      · exact ⟨_, h⟩
      · exact ⟨_, h⟩

/-- Every backtrack list ends at the origin cell `(0, 0)`. -/
theorem backtrack_last (ref user : List ℚ) :
    ∀ i j, ∃ t, backtrack ref user i j = t ++ [((0 : ℕ), (0 : ℕ))] := by
  intro i
  induction i with
  | zero =>
    intro j
    induction j with
    | zero => exact ⟨[], rfl⟩
    | succ j ihj =>
      obtain ⟨t, ht⟩ := ihj
      exact ⟨(0, j + 1) :: t, by rw [backtrack_zero_succ, ht]; rfl⟩
  | succ i ih =>
    intro j
    induction j with
    | zero =>
      obtain ⟨t, ht⟩ := ih 0
      exact ⟨(i + 1, 0) :: t, by rw [backtrack_succ_zero, ht]; rfl⟩
    | succ j ihj =>
      rcases backtrack_succ_succ_cases ref user i j with h | h | h
      · obtain ⟨t, ht⟩ := ih j
        exact ⟨(i + 1, j + 1) :: t, by rw [h, ht]; rfl⟩
      · obtain ⟨t, ht⟩ := ih (j + 1)
        exact ⟨(i + 1, j + 1) :: t, by rw [h, ht]; rfl⟩
      · obtain ⟨t, ht⟩ := ihj
        exact ⟨(i + 1, j + 1) :: t, by rw [h, ht]; rfl⟩

/-- Along the backtrack list (end-first), each consecutive move decreases
each coordinate by at most 1 and never increases one. -/
theorem backtrack_chain (ref user : List ℚ) :
    ∀ i j, List.Chain' (fun a b => pathStep b a) (backtrack ref user i j) := by
  intro i
  induction i with
  | zero =>
    intro j
    induction j with
    | zero => simp [backtrack_zero_zero]
    | succ j ihj =>
      rw [backtrack_zero_succ, List.chain'_cons']
      refine ⟨?_, ihj⟩
      intro y hy
      obtain ⟨t, ht⟩ := backtrack_head ref user 0 j
      rw [ht] at hy
      simp only [List.head?_cons, Option.mem_def, Option.some.injEq] at hy
      rw [← hy]
      exact ⟨le_refl _, by omega, by omega, by omega⟩
  | succ i ih =>
    intro j
    induction j with
    | zero =>
      rw [backtrack_succ_zero, List.chain'_cons']
      refine ⟨?_, ih 0⟩
      intro y hy
      obtain ⟨t, ht⟩ := backtrack_head ref user i 0
      rw [ht] at hy
      simp only [List.head?_cons, Option.mem_def, Option.some.injEq] at hy
      rw [← hy]
      exact ⟨by omega, by omega, le_refl _, by omega⟩
    | succ j ihj =>
      rcases backtrack_succ_succ_cases ref user i j with h | h | h
      · rw [h, List.chain'_cons']
        refine ⟨?_, ih j⟩
        intro y hy
        obtain ⟨t, ht⟩ := backtrack_head ref user i j
        rw [ht] at hy
        simp only [List.head?_cons, Option.mem_def, Option.some.injEq] at hy
        rw [← hy]
        exact ⟨by omega, by omega, by omega, by omega⟩
      · rw [h, List.chain'_cons']
        refine ⟨?_, ih (j + 1)⟩
        intro y hy
        obtain ⟨t, ht⟩ := backtrack_head ref user i (j + 1)
        rw [ht] at hy
        simp only [List.head?_cons, Option.mem_def, Option.some.injEq] at hy
        rw [← hy]
        exact ⟨by omega, by omega, le_refl _, by omega⟩
      · rw [h, List.chain'_cons']
        refine ⟨?_, ihj⟩
        intro y hy
        obtain ⟨t, ht⟩ := backtrack_head ref user (i + 1) j
        rw [ht] at hy
        simp only [List.head?_cons, Option.mem_def, Option.some.injEq] at hy
        rw [← hy]
        exact ⟨le_refl _, by omega, by omega, by omega⟩

/-- Backtrack coordinates are bounded by the starting cell. -/
theorem backtrack_bounds (ref user : List ℚ) :
    ∀ i j, ∀ p ∈ backtrack ref user i j, p.1 ≤ i ∧ p.2 ≤ j := by
  intro i
  induction i with
  | zero =>
    intro j
    induction j with
    | zero =>
      intro p hp
      rw [backtrack_zero_zero, List.mem_singleton] at hp
      rw [hp]
      exact ⟨le_refl _, le_refl _⟩
    | succ j ihj =>
      intro p hp
      rw [backtrack_zero_succ, List.mem_cons] at hp
      rcases hp with hp | hp
      · rw [hp]
        exact ⟨le_refl _, le_refl _⟩
      · have := ihj p hp
        omega
  | succ i ih =>
    intro j
    induction j with
    | zero =>
      intro p hp
      rw [backtrack_succ_zero, List.mem_cons] at hp
      rcases hp with hp | hp
      · rw [hp]
        exact ⟨le_refl _, le_refl _⟩
      · have := ih 0 p hp
        omega
    | succ j ihj =>
      intro p hp
      rcases backtrack_succ_succ_cases ref user i j with h | h | h
      all_goals rw [h, List.mem_cons] at hp
      · rcases hp with hp | hp
        · rw [hp]; exact ⟨le_refl _, le_refl _⟩
        · have := ih j p hp
          omega
      · rcases hp with hp | hp
        · rw [hp]; exact ⟨le_refl _, le_refl _⟩
        · have := ih (j + 1) p hp
          omega
      · rcases hp with hp | hp
        · rw [hp]; exact ⟨le_refl _, le_refl _⟩
        · have := ihj p hp
          omega

/-- Every reference row up to the starting cell appears in the backtrack
list. -/
theorem backtrack_coverage (ref user : List ℚ) :
    ∀ i j, ∀ r ≤ i, ∃ u ≤ j, (r, u) ∈ backtrack ref user i j := by
  intro i
  induction i with
  | zero =>
    intro j r hr
    obtain ⟨t, ht⟩ := backtrack_head ref user 0 j
    refine ⟨j, le_refl _, ?_⟩
    rw [ht]
    have : r = 0 := by omega
    rw [this]
    exact List.mem_cons_self _ _
  | succ i ih =>
    intro j
    induction j with
    | zero =>
      intro r hr
      rw [backtrack_succ_zero]
      by_cases hri : r = i + 1
      · exact ⟨0, le_refl _, by rw [hri]; exact List.mem_cons_self _ _⟩
      · obtain ⟨u, hu, hmem⟩ := ih 0 r (by omega)
        exact ⟨u, hu, List.mem_cons_of_mem _ hmem⟩
    | succ j ihj =>
      intro r hr
      rcases backtrack_succ_succ_cases ref user i j with h | h | h
      · rw [h]
        by_cases hri : r = i + 1
        · exact ⟨j + 1, le_refl _, by rw [hri]; exact List.mem_cons_self _ _⟩
        · obtain ⟨u, hu, hmem⟩ := ih j r (by omega)
          exact ⟨u, by omega, List.mem_cons_of_mem _ hmem⟩
      · rw [h]
        by_cases hri : r = i + 1
        · exact ⟨j + 1, le_refl _, by rw [hri]; exact List.mem_cons_self _ _⟩
        · obtain ⟨u, hu, hmem⟩ := ih (j + 1) r (by omega)
          exact ⟨u, hu, List.mem_cons_of_mem _ hmem⟩
      · rw [h]
        by_cases hri : r = i + 1
        · exact ⟨j + 1, le_refl _, by rw [hri]; exact List.mem_cons_self _ _⟩
        · obtain ⟨u, hu, hmem⟩ := ihj r hr
          exact ⟨u, by omega, List.mem_cons_of_mem _ hmem⟩

/-- Reading back the slot just written. -/
theorem getD_set_self (l : List ℚ) (i : ℕ) (v : ℚ) (h : i < l.length) :
    (l.set i v).getD i 0 = v := by
  rw [List.getD_eq_getElem?_getD, List.getElem?_set_self h]
  rfl

/-- Writing one slot leaves the others unchanged. -/
theorem getD_set_ne (l : List ℚ) (i j : ℕ) (v : ℚ) (h : i ≠ j) :
    (l.set i v).getD j 0 = l.getD j 0 := by
  rw [List.getD_eq_getElem?_getD, List.getElem?_set_ne h,
    ← List.getD_eq_getElem?_getD]

/-- After replaying the path writes, any row that occurs in the path holds
the user value of one of its path pairs. -/
theorem foldl_set_getD (user : List ℚ) (pth : List (ℕ × ℕ)) :
    ∀ (init : List ℚ) (r : ℕ), r < init.length →
      (∃ u, (r, u) ∈ pth) →
      ∃ u, (r, u) ∈ pth ∧
        (pth.foldl (fun acc p => acc.set p.1 (user.getD p.2 0)) init).getD r 0
          = user.getD u 0 := by
  induction pth using List.reverseRecOn with
  | nil =>
    intro init r _ hex
    obtain ⟨u, hu⟩ := hex
    exact absurd hu (List.not_mem_nil _)
  | append_singleton l p ihl =>
    intro init r hr hex
    rw [List.foldl_append, List.foldl_cons, List.foldl_nil]
    by_cases hrp : p.1 = r
    · refine ⟨p.2, ?_, ?_⟩
      · apply List.mem_append_right
        rw [← hrp]
        simp
      · rw [hrp, getD_set_self]
        rw [length_foldl_set]
        exact hr
    · obtain ⟨u, hu⟩ := hex
      rw [List.mem_append] at hu
      rcases hu with hu | hu
      · obtain ⟨u', hmem, hval⟩ := ihl init r hr ⟨u, hu⟩
        refine ⟨u', List.mem_append_left _ hmem, ?_⟩
        rw [getD_set_ne _ _ _ _ hrp]
        exact hval
      · rw [List.mem_singleton] at hu
        exact absurd (congrArg Prod.fst hu).symm hrp

/-- `Math.min(...list)` returns an element of the list. -/
theorem foldl_min_mem : ∀ (xs : List ℚ) (x : ℚ), xs.foldl min x ∈ x :: xs
  | [], x => List.mem_singleton.mpr rfl
  | y :: ys, x => by
    rw [List.foldl_cons]
    rcases List.mem_cons.mp (foldl_min_mem ys (min x y)) with h | h
    · rcases min_choice x y with hm | hm
      · rw [h, hm]
        exact List.mem_cons_self _ _
      · rw [h, hm]
        exact List.mem_cons_of_mem _ (List.mem_cons_self _ _)
    · exact List.mem_cons_of_mem _ (List.mem_cons_of_mem _ h)

/-- `Math.min(...list)` is a lower bound of the list (and of the seed). -/
theorem foldl_min_le : ∀ (xs : List ℚ) (x : ℚ), ∀ y ∈ x :: xs, xs.foldl min x ≤ y
  | [], x => by
    intro y hy
    rw [List.mem_singleton] at hy
    rw [hy]
    exact le_refl x
  | z :: zs, x => by
    intro y hy
    rw [List.foldl_cons]
    rcases List.mem_cons.mp hy with h | h
    · exact le_trans (foldl_min_le zs (min x z) _ (List.mem_cons_self _ _))
        (by rw [h]; exact min_le_left _ _)
    · rcases List.mem_cons.mp h with h2 | h2
      · exact le_trans (foldl_min_le zs (min x z) _ (List.mem_cons_self _ _))
          (by rw [h2]; exact min_le_right _ _)
      · exact foldl_min_le zs (min x z) y (List.mem_cons_of_mem _ h2)

/-- `Math.max(...list)` returns an element of the list. -/
theorem foldl_max_mem : ∀ (xs : List ℚ) (x : ℚ), xs.foldl max x ∈ x :: xs
  | [], x => List.mem_singleton.mpr rfl
  | y :: ys, x => by
    rw [List.foldl_cons]
    rcases List.mem_cons.mp (foldl_max_mem ys (max x y)) with h | h
    · rcases max_choice x y with hm | hm
      · rw [h, hm]
        exact List.mem_cons_self _ _
      · rw [h, hm]
        exact List.mem_cons_of_mem _ (List.mem_cons_self _ _)
    · exact List.mem_cons_of_mem _ (List.mem_cons_of_mem _ h)

/-- `Math.max(...list)` is an upper bound of the list (and of the seed). -/
theorem le_foldl_max : ∀ (xs : List ℚ) (x : ℚ), ∀ y ∈ x :: xs, y ≤ xs.foldl max x
  | [], x => by
    intro y hy
    rw [List.mem_singleton] at hy
    rw [hy]
    exact le_refl x
  | z :: zs, x => by
    intro y hy
    rw [List.foldl_cons]
    rcases List.mem_cons.mp hy with h | h
    · exact le_trans (by rw [h]; exact le_max_left _ _)
        (le_foldl_max zs (max x z) _ (List.mem_cons_self _ _))
    · rcases List.mem_cons.mp h with h2 | h2
      · exact le_trans (by rw [h2]; exact le_max_right _ _)
          (le_foldl_max zs (max x z) _ (List.mem_cons_self _ _))
      · exact le_foldl_max zs (max x z) y (List.mem_cons_of_mem _ h2)

/-- A monotone map commutes with the running minimum. -/
theorem foldl_min_map (g : ℚ → ℚ) (hg : Monotone g) :
    ∀ (xs : List ℚ) (x : ℚ), (xs.map g).foldl min (g x) = g (xs.foldl min x)
  | [], _ => rfl
  | y :: ys, x => by
    rw [List.map_cons, List.foldl_cons, List.foldl_cons, ← hg.map_min,
      foldl_min_map g hg ys (min x y)]

/-- A monotone map commutes with the running maximum. -/
theorem foldl_max_map (g : ℚ → ℚ) (hg : Monotone g) :
    ∀ (xs : List ℚ) (x : ℚ), (xs.map g).foldl max (g x) = g (xs.foldl max x)
  | [], _ => rfl
  | y :: ys, x => by
    rw [List.map_cons, List.foldl_cons, List.foldl_cons, ← hg.map_max,
      foldl_max_map g hg ys (max x y)]

/-- The affine rescaling of a voiced value: `((v - min) / range) * 80 + 10`. -/
def gmap (mn r v : ℚ) : ℚ := ((v - mn) / r) * 80 + 10

/-- The per-value normalization step: zeros stay zero, other values are
rescaled. -/
def rescale (mn r v : ℚ) : ℚ := if v = 0 then 0 else gmap mn r v

/-- `normalize` on an input with no positive value returns it unchanged. -/
theorem normalize_eq_nil (arr : List ℚ)
    (h : arr.filter (fun v => decide (0 < v)) = []) : normalize arr = arr := by
  unfold normalize
  rw [h]

/-- `normalize` on an input with positive values is the rescaling map with
the fold-computed minimum and maximum. -/
theorem normalize_eq_map (arr : List ℚ) (x : ℚ) (xs : List ℚ)
    (h : arr.filter (fun v => decide (0 < v)) = x :: xs) :
    normalize arr = arr.map (rescale (xs.foldl min x)
      (if xs.foldl max x - xs.foldl min x = 0 then 1
       else xs.foldl max x - xs.foldl min x)) := by
  unfold normalize
  rw [h]
  rfl

/-- Rescaling is monotone on a positive range. -/
theorem gmap_mono (mn r : ℚ) (hr : 0 < r) : Monotone (gmap mn r) := by
  intro a b hab
  unfold gmap
  have h1 : (a - mn) / r ≤ (b - mn) / r :=
    (div_le_div_iff_of_pos_right hr).mpr (sub_le_sub_right hab mn)
  nlinarith

/-- Rescaling sends the minimum itself to 10. -/
theorem gmap_self (mn r : ℚ) : gmap mn r mn = 10 := by
  unfold gmap
  rw [sub_self, zero_div, zero_mul, zero_add]

/-- A map that fixes every element of a list is the identity on it. -/
theorem map_eq_self (f : ℚ → ℚ) :
    ∀ l : List ℚ, (∀ w ∈ l, f w = w) → l.map f = l
  | [], _ => rfl
  | w :: l, h => by
    rw [List.map_cons, h w (List.mem_cons_self _ _),
      map_eq_self f l (fun y hy => h y (List.mem_cons_of_mem _ hy))]

/-- The aligner's output always has the reference contour's length. -/
theorem performDTW_length (ref user : List ℚ) :
    (performDTW ref user).length = ref.length := by
  unfold performDTW
  split
  · simp
  · rw [length_foldl_set, List.length_replicate]

/-- NaN absorbs on the right of an addition. -/
theorem jsadd_nan_right : ∀ a : JSVal, jsadd a JSVal.nan = JSVal.nan
  | JSVal.num _ => rfl
  | JSVal.inf => rfl
  | JSVal.neginf => rfl
  | JSVal.nan => rfl

/-- NaN absorbs on the left of an addition. -/
theorem jsadd_nan_left : ∀ a : JSVal, jsadd JSVal.nan a = JSVal.nan
  | JSVal.num _ => rfl
  | JSVal.inf => rfl
  | JSVal.neginf => rfl
  | JSVal.nan => rfl

/-- A NaN accumulator poisons the rest of an additive fold. -/
theorem foldl_jsadd_nan : ∀ L : List JSVal, L.foldl jsadd JSVal.nan = JSVal.nan
  | [] => rfl
  | x :: L => by
    rw [List.foldl_cons, jsadd_nan_left x, foldl_jsadd_nan L]

/-- One NaN term makes the whole accumulated sum NaN. -/
theorem foldl_jsadd_mem_nan (f : ℕ → JSVal) :
    ∀ (L : List ℕ) (acc : JSVal), (∃ j ∈ L, f j = JSVal.nan) →
      (L.map f).foldl jsadd acc = JSVal.nan
  | [], _, h => by
    obtain ⟨j, hj, _⟩ := h
    exact absurd hj (List.not_mem_nil _)
  | j :: L, acc, h => by
    rw [List.map_cons, List.foldl_cons]
    by_cases hj : f j = JSVal.nan
    · rw [hj, jsadd_nan_right]
      exact foldl_jsadd_nan _
    · obtain ⟨j', hj', hfj'⟩ := h
      rcases List.mem_cons.mp hj' with h1 | h1
      · exact absurd (h1 ▸ hfj') hj
      · exact foldl_jsadd_mem_nan f L _ ⟨j', h1, hfj'⟩

/-- An AMDF sum whose lag reaches past the buffer is NaN. -/
theorem amdfJS_nan (data : List ℚ) (i winSize p j0 : ℕ)
    (hj0 : j0 ∈ subIdx winSize) (hoob : data.length ≤ i + j0 + p) :
    amdfJS data i winSize p = JSVal.nan := by
  unfold amdfJS
  apply foldl_jsadd_mem_nan
  refine ⟨j0, hj0, ?_⟩
  have hread : jsread data (i + j0 + p) = JSVal.nan := by
    unfold jsread
    rw [List.getElem?_eq_none hoob]
  rw [hread, show jssub (jsread data (i + j0)) JSVal.nan = JSVal.nan from
    jsadd_nan_right _]
  rfl

/-- When every candidate lag's AMDF sum is NaN, the search never updates:
the accumulator survives the whole fold. -/
theorem foldl_lagStepJS_const (data : List ℚ) (i winSize : ℕ) :
    ∀ (L : List ℕ) (acc : ℕ × Option ℚ),
      (∀ p ∈ L, amdfJS data i winSize p = JSVal.nan) →
      L.foldl (lagStepJS data i winSize) acc = acc
  | [], _, _ => rfl
  | p :: L, acc, h => by
    rw [List.foldl_cons]
    have hstep : lagStepJS data i winSize acc p = acc := by
      unfold lagStepJS
      rw [h p (List.mem_cons_self _ _)]
    rw [hstep]
    exact foldl_lagStepJS_const data i winSize L acc
      (fun q hq => h q (List.mem_cons_of_mem _ hq))

/-- Every frame start emitted by the loop satisfies the loop guard. -/
theorem frameLoop_mem_guard (len winSize step : ℕ) :
    ∀ (fuel i i' : ℕ), i' ∈ frameLoop len winSize step fuel i →
      i' + winSize < len
  | 0, _, _, h => absurd h (List.not_mem_nil _)
  | Nat.succ fuel, i, i', h => by
    simp only [frameLoop] at h
    by_cases hc : i + winSize < len
    · rw [if_pos hc] at h
      rcases List.mem_cons.mp h with h1 | h1
      · omega
      · exact frameLoop_mem_guard len winSize step fuel (i + step) i' h1
    · rw [if_neg hc] at h
      exact absurd h (List.not_mem_nil _)

/-- Every frame start satisfies the loop guard `i + winSize < len`. -/
theorem frameStarts_mem_guard (len winSize step i i' : ℕ)
    (h : i' ∈ frameStarts len winSize step i) : i' + winSize < len := by
  unfold frameStarts at h
  split at h
  · exact absurd h (List.not_mem_nil _)
  · exact frameLoop_mem_guard len winSize step len i i' h

/-- Sub-sampled offsets stay inside the window. -/
theorem subIdx_lt (winSize j : ℕ) (h : j ∈ subIdx winSize) : j < winSize := by
  unfold subIdx at h
  rw [List.mem_range'] at h
  obtain ⟨k, hk, rfl⟩ := h
  omega

/-- An in-range JavaScript read is the stored finite sample. -/
theorem jsread_eq (data : List ℚ) (k : ℕ) (h : k < data.length) :
    jsread data k = JSVal.num (data.getD k 0) := by
  unfold jsread
  rw [List.getElem?_eq_getElem h, List.getD_eq_getElem data 0 h]

/-- A fold of finite JavaScript additions is the finite sum. -/
theorem foldl_jsadd_num (f : ℕ → ℚ) :
    ∀ (L : List ℕ) (c : ℚ),
      (L.map (fun j => JSVal.num (f j))).foldl jsadd (JSVal.num c)
        = JSVal.num (c + (L.map f).sum)
  | [], c => by simp
  | j :: L, c => by
    rw [List.map_cons, List.foldl_cons,
      show jsadd (JSVal.num c) (JSVal.num (f j)) = JSVal.num (c + f j) from rfl,
      foldl_jsadd_num f L (c + f j), List.map_cons, List.sum_cons]
    exact congrArg JSVal.num (by ring)

/-- Division of finite JavaScript values with a non-zero divisor is exact
division. -/
theorem jsdiv_num_num (a b : ℚ) (hb : b ≠ 0) :
    jsdiv (JSVal.num a) (JSVal.num b) = JSVal.num (a / b) := if_neg hb

/-- With all its reads in range, the JavaScript frame energy is the finite
rational energy. -/
theorem frameEnergyJS_eq (data : List ℚ) (i w : ℕ) (hw : 0 < w)
    (h : ∀ j ∈ subIdx w, i + j < data.length) :
    frameEnergyJS data i w = JSVal.num (frameEnergy data i w) := by
  unfold frameEnergyJS frameEnergy
  have hmap : (subIdx w).map (fun j => jsabs (jsread data (i + j)))
      = (subIdx w).map (fun j => JSVal.num |data.getD (i + j) 0|) := by
    apply List.map_congr_left
    intro j hj
    rw [jsread_eq data (i + j) (h j hj)]
    rfl
  rw [hmap, foldl_jsadd_num (fun j => |data.getD (i + j) 0|) (subIdx w) 0]
  have hd : ((w : ℚ) / 4) ≠ 0 := by positivity
  rw [jsdiv_num_num _ _ hd]
  exact congrArg JSVal.num (by rw [zero_add])

/-- With all its reads in range, the JavaScript AMDF sum is the finite
rational sum. -/
theorem amdfJS_eq (data : List ℚ) (i w p : ℕ)
    (h : ∀ j ∈ subIdx w, i + j + p < data.length) :
    amdfJS data i w p = JSVal.num (amdf data i w p) := by
  unfold amdfJS amdf
  have hmap : (subIdx w).map
      (fun j => jsabs (jssub (jsread data (i + j)) (jsread data (i + j + p))))
      = (subIdx w).map
        (fun j => JSVal.num |data.getD (i + j) 0 - data.getD (i + j + p) 0|) := by
    apply List.map_congr_left
    intro j hj
    rw [jsread_eq data (i + j) (by have := h j hj; omega),
      jsread_eq data (i + j + p) (h j hj)]
    show JSVal.num |data.getD (i + j) 0 + -data.getD (i + j + p) 0| = _
    exact congrArg JSVal.num (by rw [← sub_eq_add_neg])
  rw [hmap, foldl_jsadd_num
    (fun j => |data.getD (i + j) 0 - data.getD (i + j + p) 0|) (subIdx w) 0]
  exact congrArg JSVal.num (by rw [zero_add])

/-- When every candidate lag's AMDF sum is finite, the JavaScript lag
search agrees with the rational one. -/
theorem foldl_lagStepJS_eq (data : List ℚ) (i w : ℕ) :
    ∀ (L : List ℕ) (acc : ℕ × Option ℚ),
      (∀ p ∈ L, amdfJS data i w p = JSVal.num (amdf data i w p)) →
      L.foldl (lagStepJS data i w) acc = L.foldl (lagStep data i w) acc
  | [], _, _ => rfl
  | p :: L, acc, h => by
    rw [List.foldl_cons, List.foldl_cons]
    have hstep : lagStepJS data i w acc p = lagStep data i w acc p := by
      unfold lagStepJS lagStep
      rw [h p (List.mem_cons_self _ _)]
      rcases hacc : acc.2 with _ | m
      · rfl
      · rfl
    rw [hstep]
    exact foldl_lagStepJS_eq data i w L _
      (fun q hq => h q (List.mem_cons_of_mem _ hq))

/-- Bridge for the selected lag under in-range reads. -/
theorem bestLagJS_eq (data : List ℚ) (i w minP maxP : ℕ)
    (h : ∀ p ∈ lagRange minP maxP,
      amdfJS data i w p = JSVal.num (amdf data i w p)) :
    bestLagJS data i w minP maxP = bestLag data i w minP maxP := by
  unfold bestLagJS bestLag
  rw [foldl_lagStepJS_eq data i w (lagRange minP maxP) _ h]

/-- Bridge for the per-frame pitch value: with all AMDF reads in range and
a positive selected lag, the JavaScript frame value is the finite rational
one. -/
theorem framePitchJS_eq (data : List ℚ) (sr i w minP maxP : ℕ) (hw : 0 < w)
    (he : ∀ j ∈ subIdx w, i + j < data.length)
    (hl : ∀ p ∈ lagRange minP maxP, ∀ j ∈ subIdx w, i + j + p < data.length)
    (hb : 0 < bestLag data i w minP maxP) :
    framePitchJS data sr i w minP maxP
      = JSVal.num (framePitch data sr i w minP maxP) := by
  unfold framePitchJS framePitch
  rw [frameEnergyJS_eq data i w hw he,
    show jslt (JSVal.num (frameEnergy data i w)) (JSVal.num (1 / 100))
      = decide (frameEnergy data i w < 1 / 100) from rfl,
    bestLagJS_eq data i w minP maxP
      (fun p hp => amdfJS_eq data i w p (fun j hj => hl p hp j hj))]
  by_cases hsil : frameEnergy data i w < 1 / 100
  · rw [if_pos (by simpa using hsil), if_pos hsil]
  · rw [if_neg (by simpa using hsil), if_neg hsil,
      jsdiv_num_num _ _ (by exact_mod_cast Nat.pos_iff_ne_zero.mp hb)]

/-- The rational bound on a voiced frame's estimate: at least 75 Hz and at
most `sampleRate / floor(sampleRate / 600)`. -/
theorem framePitch_voiced_bounds (data : List ℚ) (sr i w : ℕ)
    (hsr : 600 ≤ sr) (hne : framePitch data sr i w (sr / 600) (sr / 75) ≠ 0) :
    75 ≤ framePitch data sr i w (sr / 600) (sr / 75) ∧
      framePitch data sr i w (sr / 600) (sr / 75)
        ≤ (sr : ℚ) / ((sr / 600 : ℕ) : ℚ) := by
  rcases framePitch_cases data sr i w (sr / 600) (sr / 75) with hz | hpitch
  · exact absurd hz hne
  · rw [hpitch]
    have hle : sr / 600 ≤ sr / 75 := Nat.div_le_div_left (by norm_num) (by norm_num)
    obtain ⟨hlo, hhi⟩ := bestLag_mem data i w (sr / 600) (sr / 75) hle
    have hminP : 1 ≤ sr / 600 := by omega
    have hb0 : 0 < bestLag data i w (sr / 600) (sr / 75) := by omega
    have hbq : (0 : ℚ) < (bestLag data i w (sr / 600) (sr / 75) : ℚ) := by
      exact_mod_cast hb0
    constructor
    · rw [le_div_iff₀ hbq]
      have hmul : 75 * bestLag data i w (sr / 600) (sr / 75) ≤ sr := by omega
      exact_mod_cast hmul
    · apply div_le_div_of_nonneg_left (by positivity) (by exact_mod_cast hminP)
      exact_mod_cast hlo

/-! ## Claims -/

/-- Claim C6: if either contour is empty the aligner returns an all-zero
contour of the reference contour's length, and the aligner is a total
function whose output always has the reference contour's length (it never
raises a fault). -/
theorem performDTW_total_and_degenerate :
    (∀ ref user : List ℚ, (performDTW ref user).length = ref.length) ∧
    (∀ ref user : List ℚ, ref.length = 0 ∨ user.length = 0 →
      performDTW ref user = List.replicate ref.length 0) := by
  constructor
  · exact performDTW_length
  · intro ref user h
    unfold performDTW
    rw [if_pos h]

/-- Witness for C6 at a concrete degenerate input: aligning the empty user
contour against a one-element reference gives the one-element zero contour. -/
theorem performDTW_total_and_degenerate_witness :
    performDTW [1] [] = List.replicate 1 0 :=
  performDTW_total_and_degenerate.2 [1] [] (Or.inr rfl)

/-- Claim C2, refuted: the AMDF lag search does read past the end of the
sample buffer.  At sample rate 400 (window 16, hop 8, lag range 0–5) with
17 samples of value 1/2, the frame at i = 0 passes the energy gate and the
lag search dereferences sample index 0 + 12 + 5 = 17, one past the last
valid index 16 of the buffer. -/
theorem amdf_read_out_of_bounds :
    17 ∈ amdfReadIndices ⟨List.replicate 17 (1/2 : ℚ), 400⟩ ∧
      (List.replicate 17 (1/2 : ℚ)).length = 17 := by
  constructor
  · norm_num [amdfReadIndices, frameStarts, frameLoop, frameEnergy, lagRange,
      subIdx, List.range', List.getD, List.getElem?_replicate, Option.getD,
      abs_eq_max_neg, List.flatMap]
  · simp

/-- Claim C3, counterexample: at sample rate 100 (window 4, hop 2) a buffer
of 6 samples satisfies sampleCount > windowSize, yet the raw contour has 1
frame while the claimed formula floor((sampleCount − windowSize)/hopSize) + 1
gives 2 — the loop guard is strict, so an exact multiple of the hop is not
a frame start. -/
theorem extractPitch_length_counterexample :
    (extractPitch ⟨List.replicate 6 0, 100⟩).length = 1 ∧
      (6 - 100 * 4 / 100) / (100 * 2 / 100) + 1 = 2 := by
  constructor
  · norm_num [extractPitch, frameStarts, frameLoop, framePitch, frameEnergy,
      subIdx, List.range', List.getD, List.getElem?_replicate, Option.getD]
  · norm_num

/-- Claim C3, amended: for sampleRate ≥ 50 (so the hop is at least 1) and
sampleCount > windowSize, the raw contour's length is
`floor((sampleCount − windowSize − 1)/hopSize) + 1`, i.e.
`ceil((sampleCount − windowSize)/hopSize)`: one less than the claimed
formula exactly when the hop divides `sampleCount − windowSize`. -/
theorem extractPitch_length (buf : AudioBuffer)
    (hsr : 50 ≤ buf.sampleRate)
    (hw : buf.sampleRate * 4 / 100 < buf.samples.length) :
    (extractPitch buf).length =
      (buf.samples.length - buf.sampleRate * 4 / 100 - 1) /
        (buf.sampleRate * 2 / 100) + 1 := by
  unfold extractPitch
  rw [List.length_map]
  exact frameStarts_length _ _ _ (by omega) hw

/-- Witness for the amended C3 at sample rate 100 with 6 samples:
window 4, hop 2, and the contour has (6 − 4 − 1)/2 + 1 = 1 frame. -/
theorem extractPitch_length_witness :
    (extractPitch ⟨List.replicate 6 0, 100⟩).length =
      ((List.replicate 6 (0 : ℚ)).length - 100 * 4 / 100 - 1) /
        (100 * 2 / 100) + 1 :=
  extractPitch_length ⟨List.replicate 6 0, 100⟩ (by norm_num) (by simp)

/-- Claim C4, counterexample: the source guards the range with
`max - min || 1` (1 exactly when the difference is 0), not
`max(max - min, 1)`.  On the contour [10, 21/2] the non-zero range is 1/2,
so the source maps 21/2 to 90 while the claimed formula maps it to 50. -/
theorem normalize_range_counterexample :
    normalize [(10 : ℚ), 21/2] = [10, 90] ∧
      normalizeClaimed [(10 : ℚ), 21/2] = [10, 50] := by
  constructor
  · norm_num [normalize, List.filter, List.foldl, min_def, max_def]
  · norm_num [normalizeClaimed, List.filter, List.foldl, min_def, max_def]

/-- Claim C7, counterexample: the frequency estimate is not bounded by
600 Hz.  At sample rate 601 the minimum lag is floor(601/600) = 1, and on a
constant voiced buffer the first lag wins the AMDF search, giving the
estimate 601/1 = 601 Hz > 600 Hz. -/
theorem extractPitch_above_600_counterexample :
    extractPitch ⟨List.replicate 25 (1/2 : ℚ), 601⟩ = [601] ∧
      ¬ ((601 : ℚ) ≤ 600) := by
  constructor
  · norm_num [extractPitch, frameStarts, frameLoop, framePitch, frameEnergy,
      amdf, bestLag, lagStep, lagRange, subIdx, List.range', List.getD,
      List.getElem?_replicate, Option.getD, abs_eq_max_neg, min_def, max_def]
  · norm_num

/-- Claim C7, amended, on the JavaScript semantics: for sample rates of at
least 600 Hz and every frame of the extractor whose AMDF lag search stays
within the sample buffer, the frame's value is the silence 0 or a finite
voiced estimate between 75 Hz inclusive and
`sampleRate / floor(sampleRate / 600)` inclusive — an upper end that can
exceed 600 Hz, so the claimed 600 Hz bound fails; at frames whose lag
search reads out of bounds no such bound holds (the estimate can be
`Infinity`, see `reference_contour_nan`). -/
theorem framePitchJS_voiced_range (buf : AudioBuffer)
    (hsr : 600 ≤ buf.sampleRate) (i : ℕ)
    (hi : i ∈ frameStarts buf.samples.length (buf.sampleRate * 4 / 100)
      (buf.sampleRate * 2 / 100) 0)
    (hin : ∀ p ∈ lagRange (buf.sampleRate / 600) (buf.sampleRate / 75),
      ∀ j ∈ subIdx (buf.sampleRate * 4 / 100),
        i + j + p < buf.samples.length) :
    framePitchJS buf.samples buf.sampleRate i (buf.sampleRate * 4 / 100)
        (buf.sampleRate / 600) (buf.sampleRate / 75) ∈ extractPitchJS buf ∧
      (framePitchJS buf.samples buf.sampleRate i (buf.sampleRate * 4 / 100)
          (buf.sampleRate / 600) (buf.sampleRate / 75) = JSVal.num 0 ∨
        ∃ q : ℚ, framePitchJS buf.samples buf.sampleRate i
            (buf.sampleRate * 4 / 100) (buf.sampleRate / 600)
            (buf.sampleRate / 75) = JSVal.num q ∧
          75 ≤ q ∧
          q ≤ (buf.sampleRate : ℚ) / ((buf.sampleRate / 600 : ℕ) : ℚ)) := by
  constructor
  · simp only [extractPitchJS]
    exact List.mem_map_of_mem _ hi
  · have hw : 0 < buf.sampleRate * 4 / 100 := by omega
    have hguard : i + buf.sampleRate * 4 / 100 < buf.samples.length :=
      frameStarts_mem_guard _ _ _ _ _ hi
    have he : ∀ j ∈ subIdx (buf.sampleRate * 4 / 100),
        i + j < buf.samples.length := by
      intro j hj
      have := subIdx_lt _ j hj
      omega
    have hle : buf.sampleRate / 600 ≤ buf.sampleRate / 75 :=
      Nat.div_le_div_left (by norm_num) (by norm_num)
    obtain ⟨hlo, _⟩ := bestLag_mem buf.samples i (buf.sampleRate * 4 / 100)
      (buf.sampleRate / 600) (buf.sampleRate / 75) hle
    have hminP : 1 ≤ buf.sampleRate / 600 := by omega
    have hb : 0 < bestLag buf.samples i (buf.sampleRate * 4 / 100)
        (buf.sampleRate / 600) (buf.sampleRate / 75) := by omega
    rw [framePitchJS_eq buf.samples buf.sampleRate i (buf.sampleRate * 4 / 100)
      (buf.sampleRate / 600) (buf.sampleRate / 75) hw he hin hb]
    rcases framePitch_cases buf.samples buf.sampleRate i
        (buf.sampleRate * 4 / 100) (buf.sampleRate / 600)
        (buf.sampleRate / 75) with hz | hpitch
    · exact Or.inl (congrArg JSVal.num hz)
    · refine Or.inr ⟨framePitch buf.samples buf.sampleRate i
        (buf.sampleRate * 4 / 100) (buf.sampleRate / 600)
        (buf.sampleRate / 75), rfl, ?_⟩
      apply framePitch_voiced_bounds buf.samples buf.sampleRate i
        (buf.sampleRate * 4 / 100) hsr
      rw [hpitch]
      have hsrq : (0 : ℚ) < (buf.sampleRate : ℚ) := by
        exact_mod_cast (by omega : 0 < buf.sampleRate)
      have hbq : (0 : ℚ) < (bestLag buf.samples i (buf.sampleRate * 4 / 100)
          (buf.sampleRate / 600) (buf.sampleRate / 75) : ℚ) := by
        exact_mod_cast hb
      positivity

/-- Witness for the amended C7: at sample rate 700 on 40 samples of 1/2,
the frame at i = 0 has every lag-search read in bounds; the theorem applies
and its voiced branch holds with the 700 Hz estimate (the frame is voiced,
lag 1 wins, and 75 ≤ 700 ≤ 700/1). -/
theorem framePitchJS_voiced_range_witness :
    framePitchJS (AudioBuffer.mk (List.replicate 40 (1/2 : ℚ)) 700).samples
        700 0 (700 * 4 / 100) (700 / 600) (700 / 75)
      ∈ extractPitchJS (AudioBuffer.mk (List.replicate 40 (1/2 : ℚ)) 700) ∧
      (framePitchJS (AudioBuffer.mk (List.replicate 40 (1/2 : ℚ)) 700).samples
          700 0 (700 * 4 / 100) (700 / 600) (700 / 75) = JSVal.num 0 ∨
        ∃ q : ℚ, framePitchJS
            (AudioBuffer.mk (List.replicate 40 (1/2 : ℚ)) 700).samples
            700 0 (700 * 4 / 100) (700 / 600) (700 / 75) = JSVal.num q ∧
          75 ≤ q ∧ q ≤ ((700 : ℕ) : ℚ) / (((700 : ℕ) / 600 : ℕ) : ℚ)) :=
  framePitchJS_voiced_range (AudioBuffer.mk (List.replicate 40 (1/2 : ℚ)) 700)
    (by norm_num) 0 (by decide) (by decide)

/-- The index-scan trim of the source agrees with the description "drop the
leading and the trailing run of exact zeros". -/
theorem trimPitch_eq_claimed (arr : List ℚ) : trimPitch arr = trimClaimed arr := by
  unfold trimPitch trimClaimed
  by_cases hall : arr.length ≤ leadZeroCount arr
  · rw [if_pos hall]
    have hlen : leadZeroCount arr = arr.length :=
      le_antisymm (leadZeroCount_le_length arr) hall
    rw [dropWhile_eq_drop_leadZeroCount arr, hlen, List.drop_length]
    rfl
  · rw [if_neg hall]
    push_neg at hall
    rw [dropWhile_eq_drop_leadZeroCount arr]
    have hdne : arr.dropWhile (fun v => decide (v = 0)) ≠ [] := by
      rw [dropWhile_eq_drop_leadZeroCount]
      intro hc
      have hlc := congrArg List.length hc
      rw [List.length_drop, List.length_nil] at hlc
      omega
    have hnz : ¬ ∀ v ∈ arr.drop (leadZeroCount arr), v = 0 := by
      rw [← dropWhile_eq_drop_leadZeroCount]
      intro hforall
      have h1 := List.head_dropWhile_not (fun v => decide (v = 0)) arr hdne
      have h2 := hforall _ (List.head_mem hdne)
      rw [h2] at h1
      simp at h1
    have htr : leadZeroCount (arr.drop (leadZeroCount arr)).reverse
        < (arr.drop (leadZeroCount arr)).reverse.length := by
      have hle := leadZeroCount_le_length (arr.drop (leadZeroCount arr)).reverse
      have hne : ¬ (leadZeroCount (arr.drop (leadZeroCount arr)).reverse
          = (arr.drop (leadZeroCount arr)).reverse.length) := by
        rw [leadZeroCount_eq_length_iff]
        intro hz
        exact hnz (fun v hv => hz v (List.mem_reverse.mpr hv))
      omega
    have harr_rev : arr.reverse = (arr.drop (leadZeroCount arr)).reverse
        ++ (arr.take (leadZeroCount arr)).reverse := by
      conv_lhs => rw [← List.take_append_drop (leadZeroCount arr) arr]
      rw [List.reverse_append]
    have htrail : leadZeroCount arr.reverse
        = leadZeroCount (arr.drop (leadZeroCount arr)).reverse := by
      rw [harr_rev, leadZeroCount_append _ _ htr]
    rw [dropWhile_eq_drop_leadZeroCount (arr.drop (leadZeroCount arr)).reverse,
      List.drop_reverse, List.reverse_reverse, htrail]
    congr 1
    rw [List.length_drop]
    omega

/-- Claim C8: trim returns the contiguous sub-sequence obtained by dropping
exactly the leading and trailing runs of exact-zero frames (preserving
interior zeros and order), an all-zero or empty input yields the empty
sequence, and trim of [0,0,5,0,7,0,0] is [5,0,7]. -/
theorem trimPitch_spec :
    (∀ arr : List ℚ, trimPitch arr = trimClaimed arr) ∧
    (∀ arr : List ℚ, (∀ v ∈ arr, v = 0) → trimPitch arr = []) ∧
    trimPitch [0, 0, 5, 0, 7, 0, 0] = [5, 0, 7] := by
  refine ⟨trimPitch_eq_claimed, ?_, ?_⟩
  · intro arr h
    unfold trimPitch
    rw [if_pos (le_of_eq ((leadZeroCount_eq_length_iff arr).mpr h).symm)]
  · norm_num [trimPitch, leadZeroCount]

/-- Witness for C8 at a concrete all-zero contour. -/
theorem trimPitch_spec_witness : trimPitch [0, 0] = [] :=
  trimPitch_spec.2.1 [0, 0] (by norm_num)

/-- Claim C5: for non-empty contours the alignment path starts at (0,0),
ends at (N−1, M−1), and along the path both coordinates are non-decreasing
with each consecutive step advancing each coordinate by at most 1. -/
theorem dtwPath_boundary (ref user : List ℚ)
    (_hN : 1 ≤ ref.length) (_hM : 1 ≤ user.length) :
    (dtwPath ref user).head? = some (0, 0) ∧
      (dtwPath ref user).getLast?
        = some (ref.length - 1, user.length - 1) ∧
      List.Chain' pathStep (dtwPath ref user) := by
  refine ⟨?_, ?_, ?_⟩
  · rw [dtwPath, List.head?_reverse]
    obtain ⟨t, ht⟩ := backtrack_last ref user (ref.length - 1) (user.length - 1)
    rw [ht, List.getLast?_concat]
  · rw [dtwPath, List.getLast?_reverse]
    obtain ⟨t, ht⟩ := backtrack_head ref user (ref.length - 1) (user.length - 1)
    rw [ht, List.head?_cons]
  · rw [dtwPath, List.chain'_reverse]
    exact backtrack_chain ref user _ _

/-- Witness for C5 on the one-element contours [1] and [2]. -/
theorem dtwPath_boundary_witness :
    (dtwPath [1] [2]).head? = some (0, 0) ∧
      (dtwPath [1] [2]).getLast?
        = some (([(1 : ℚ)] : List ℚ).length - 1, ([(2 : ℚ)] : List ℚ).length - 1) ∧
      List.Chain' pathStep (dtwPath [1] [2]) :=
  dtwPath_boundary [1] [2] (by norm_num) (by norm_num)

/-- Claim C10: for non-empty contours every reference index r < N is hit by
the alignment path, the aligned contour at r holds the user value of one of
its path pairs (so a position is 0 only if that user value is 0), and the
last position holds user[M−1]. -/
theorem performDTW_coverage (ref user : List ℚ)
    (hN : 1 ≤ ref.length) (hM : 1 ≤ user.length) :
    (∀ r < ref.length, ∃ u < user.length, (r, u) ∈ dtwPath ref user ∧
        (performDTW ref user).getD r 0 = user.getD u 0) ∧
      (performDTW ref user).getD (ref.length - 1) 0
        = user.getD (user.length - 1) 0 := by
  have hcond : ¬ (ref.length = 0 ∨ user.length = 0) := by omega
  constructor
  · intro r hr
    have hex : ∃ u, (r, u) ∈ dtwPath ref user := by
      obtain ⟨u, _, hmem⟩ := backtrack_coverage ref user (ref.length - 1)
        (user.length - 1) r (by omega)
      exact ⟨u, by rw [dtwPath, List.mem_reverse]; exact hmem⟩
    obtain ⟨u, hmem, hval⟩ := foldl_set_getD user (dtwPath ref user)
      (List.replicate ref.length 0) r (by rw [List.length_replicate]; exact hr) hex
    have hub : u < user.length := by
      have hb := backtrack_bounds ref user (ref.length - 1) (user.length - 1)
        (r, u) (by rw [dtwPath, List.mem_reverse] at hmem; exact hmem)
      omega
    refine ⟨u, hub, hmem, ?_⟩
    rw [performDTW, if_neg hcond]
    exact hval
  · rw [performDTW, if_neg hcond]
    obtain ⟨t, ht⟩ := backtrack_head ref user (ref.length - 1) (user.length - 1)
    have hpath : dtwPath ref user
        = t.reverse ++ [(ref.length - 1, user.length - 1)] := by
      rw [dtwPath, ht, List.reverse_cons]
    rw [hpath, List.foldl_append, List.foldl_cons, List.foldl_nil]
    exact getD_set_self _ _ _ (by rw [length_foldl_set, List.length_replicate]; omega)

/-- Witness for C10 on the contours [1, 2] and [3]. -/
theorem performDTW_coverage_witness :
    (∀ r < ([(1 : ℚ), 2] : List ℚ).length, ∃ u < ([(3 : ℚ)] : List ℚ).length,
        (r, u) ∈ dtwPath [1, 2] [3] ∧
        (performDTW [1, 2] [3]).getD r 0 = ([(3 : ℚ)] : List ℚ).getD u 0) ∧
      (performDTW [1, 2] [3]).getD (([(1 : ℚ), 2] : List ℚ).length - 1) 0
        = ([(3 : ℚ)] : List ℚ).getD (([(3 : ℚ)] : List ℚ).length - 1) 0 :=
  performDTW_coverage [1, 2] [3] (by norm_num) (by norm_num)

/-- On a contour of non-negative values the non-zero values are exactly
the values the source collects with `v > 0`. -/
theorem filter_pos_eq_filter_ne (arr : List ℚ) (hpos : ∀ v ∈ arr, 0 ≤ v) :
    arr.filter (fun v => decide (0 < v)) = arr.filter (fun v => decide (v ≠ 0)) :=
  List.filter_congr (fun v hv => by
    rcases eq_or_lt_of_le (hpos v hv) with h | h
    · simp [← h]
    · simp [h, ne_of_gt h])

/-- Claim C4, amended: on a contour of non-negative values, if there is no
non-zero value normalization returns the input unchanged; otherwise, with
mn and mx the minimum and maximum over the non-zero values, every non-zero
value v maps to `((v - mn)/range)*80 + 10` and every zero stays 0, where
`range = mx - mn` if `mx ≠ mn` and 1 otherwise (not `max(mx - mn, 1)` as
claimed). -/
theorem normalize_spec (arr : List ℚ) (hpos : ∀ v ∈ arr, 0 ≤ v) :
    (arr.filter (fun v => decide (v ≠ 0)) = [] → normalize arr = arr) ∧
    (∀ x xs, arr.filter (fun v => decide (v ≠ 0)) = x :: xs →
      ∃ mn mx, (mn ∈ x :: xs ∧ ∀ y ∈ x :: xs, mn ≤ y) ∧
        (mx ∈ x :: xs ∧ ∀ y ∈ x :: xs, y ≤ mx) ∧
        normalize arr = arr.map (fun v => if v = 0 then 0
          else ((v - mn) / (if mx - mn = 0 then 1 else mx - mn)) * 80 + 10)) := by
  rw [← filter_pos_eq_filter_ne arr hpos]
  constructor
  · exact normalize_eq_nil arr
  · intro x xs h
    exact ⟨xs.foldl min x, xs.foldl max x,
      ⟨foldl_min_mem xs x, foldl_min_le xs x⟩,
      ⟨foldl_max_mem xs x, le_foldl_max xs x⟩,
      normalize_eq_map arr x xs h⟩

/-- Witness for the amended C4 on the contour [0, 10]. -/
theorem normalize_spec_witness :
    (([(0 : ℚ), 10] : List ℚ).filter (fun v => decide (v ≠ 0)) = []
        → normalize [0, 10] = [0, 10]) ∧
    (∀ x xs, ([(0 : ℚ), 10] : List ℚ).filter (fun v => decide (v ≠ 0)) = x :: xs →
      ∃ mn mx, (mn ∈ x :: xs ∧ ∀ y ∈ x :: xs, mn ≤ y) ∧
        (mx ∈ x :: xs ∧ ∀ y ∈ x :: xs, y ≤ mx) ∧
        normalize [0, 10] = ([(0 : ℚ), 10] : List ℚ).map (fun v => if v = 0 then 0
          else ((v - mn) / (if mx - mn = 0 then 1 else mx - mn)) * 80 + 10)) :=
  normalize_spec [0, 10] (by norm_num)

/-- Claim C9: normalization is a projection.  Under exact rational
arithmetic, normalizing the output of `normalize` a second time
(recomputing min and max over the output's own non-zero values) reproduces
that output exactly, for every contour of non-negative values containing a
non-zero value. -/
theorem normalize_idempotent (arr : List ℚ) (hpos : ∀ v ∈ arr, 0 ≤ v)
    (hnz : ∃ v ∈ arr, v ≠ 0) :
    normalize (normalize arr) = normalize arr := by
  have hne : arr.filter (fun v => decide (0 < v)) ≠ [] := by
    obtain ⟨v, hv, hv0⟩ := hnz
    have hvpos : 0 < v := lt_of_le_of_ne (hpos v hv) (Ne.symm hv0)
    intro hc
    rw [List.filter_eq_nil_iff] at hc
    exact hc v hv (by simpa using hvpos)
  rcases hfe : arr.filter (fun v => decide (0 < v)) with _ | ⟨x, xs⟩
  · exact absurd hfe hne
  · have hmem_pos : ∀ y ∈ x :: xs, 0 < y := by
      intro y hy
      rw [← hfe] at hy
      simpa using List.of_mem_filter hy
    have hmn_le : ∀ y ∈ x :: xs, xs.foldl min x ≤ y := foldl_min_le xs x
    have hle_mx : ∀ y ∈ x :: xs, y ≤ xs.foldl max x := le_foldl_max xs x
    have hmnmx : xs.foldl min x ≤ xs.foldl max x :=
      le_trans (hmn_le x (List.mem_cons_self _ _))
        (hle_mx x (List.mem_cons_self _ _))
    set mn := xs.foldl min x with hmn_def
    set mx := xs.foldl max x with hmx_def
    set R : ℚ := if mx - mn = 0 then 1 else mx - mn with hR_def
    have hR : 0 < R := by
      rw [hR_def]
      split
      · norm_num
      · rename_i h0
        exact lt_of_le_of_ne (sub_nonneg.mpr hmnmx) (Ne.symm h0)
    have hmono : Monotone (gmap mn R) := gmap_mono mn R hR
    have h1 : normalize arr = arr.map (rescale mn R) := normalize_eq_map arr x xs hfe
    have hg10 : ∀ y ∈ x :: xs, 10 ≤ gmap mn R y := by
      intro y hy
      have h2 : 0 ≤ (y - mn) / R :=
        div_nonneg (sub_nonneg.mpr (hmn_le y hy)) (le_of_lt hR)
      unfold gmap
      nlinarith
    have hfpos : ∀ y ∈ x :: xs, rescale mn R y = gmap mn R y := by
      intro y hy
      unfold rescale
      rw [if_neg (ne_of_gt (hmem_pos y hy))]
    have h2 : (arr.map (rescale mn R)).filter (fun v => decide (0 < v))
        = (x :: xs).map (gmap mn R) := by
      rw [List.filter_map]
      have hcongr : arr.filter ((fun v => decide (0 < v)) ∘ (rescale mn R))
          = arr.filter (fun v => decide (0 < v)) := by
        apply List.filter_congr
        intro a ha
        by_cases ha0 : a = 0
        · simp [ha0, rescale]
        · have hapos : 0 < a := lt_of_le_of_ne (hpos a ha) (Ne.symm ha0)
          have hamem : a ∈ x :: xs := by
            rw [← hfe]
            exact List.mem_filter.mpr ⟨ha, by simpa using hapos⟩
          have hga : 0 < gmap mn R a := by linarith [hg10 a hamem]
          simp [Function.comp, rescale, ha0, hapos, hga]
      rw [hcongr, hfe]
      exact List.map_congr_left hfpos
    rw [h1]
    have h3 : (arr.map (rescale mn R)).filter (fun v => decide (0 < v))
        = gmap mn R x :: xs.map (gmap mn R) := by
      rw [h2, List.map_cons]
    rw [normalize_eq_map (arr.map (rescale mn R)) (gmap mn R x)
      (xs.map (gmap mn R)) h3]
    have h4 : (xs.map (gmap mn R)).foldl min (gmap mn R x) = gmap mn R mn :=
      foldl_min_map (gmap mn R) hmono xs x
    have h6 : (xs.map (gmap mn R)).foldl max (gmap mn R x) = gmap mn R mx :=
      foldl_max_map (gmap mn R) hmono xs x
    have h5 : gmap mn R mn = 10 := gmap_self mn R
    rw [h4, h6, h5]
    by_cases hcase : mx - mn = 0
    · have hmxmn : mx = mn := by linarith
      have h7 : gmap mn R mx = 10 := by rw [hmxmn, h5]
      rw [h7, if_pos (by norm_num : (10 : ℚ) - 10 = 0)]
      apply map_eq_self
      intro w hw
      rw [List.mem_map] at hw
      obtain ⟨v, hv, hweq⟩ := hw
      by_cases hv0 : v = 0
      · rw [← hweq, hv0]
        simp [rescale]
      · have hvpos : 0 < v := lt_of_le_of_ne (hpos v hv) (Ne.symm hv0)
        have hvmem : v ∈ x :: xs := by
          rw [← hfe]
          exact List.mem_filter.mpr ⟨hv, by simpa using hvpos⟩
        have hveq : v = mn :=
          le_antisymm (le_of_le_of_eq (hle_mx v hvmem) hmxmn) (hmn_le v hvmem)
        rw [← hweq, hfpos v hvmem, hveq, h5]
        norm_num [rescale, gmap]
    · have hRval : R = mx - mn := by rw [hR_def, if_neg hcase]
      have h8 : gmap mn R mx = 90 := by
        unfold gmap
        rw [hRval, div_self hcase]
        norm_num
      rw [h8, if_neg (by norm_num : (90 : ℚ) - 10 ≠ 0)]
      apply map_eq_self
      intro w _
      by_cases hw0 : w = 0
      · rw [hw0]
        simp [rescale]
      · unfold rescale gmap
        rw [if_neg hw0]
        norm_num

/-- Witness for C9 on the contour [0, 10, 20]. -/
theorem normalize_idempotent_witness :
    normalize (normalize [0, 10, 20]) = normalize [0, 10, 20] :=
  normalize_idempotent [0, 10, 20] (by norm_num)
    ⟨10, by norm_num, by norm_num⟩

/-- Raw pitch values are never negative: silent frames give 0 and voiced
frames give a quotient of casts of naturals. -/
theorem extractPitch_nonneg (buf : AudioBuffer) :
    ∀ v ∈ extractPitch buf, 0 ≤ v := by
  intro v hv
  simp only [extractPitch, List.mem_map] at hv
  obtain ⟨i, _, hfp⟩ := hv
  rcases framePitch_cases buf.samples buf.sampleRate i (buf.sampleRate * 4 / 100)
      (buf.sampleRate / 600) (buf.sampleRate / 75) with hz | hpitch
  · rw [← hfp, hz]
  · rw [← hfp, hpitch]
    exact div_nonneg (Nat.cast_nonneg _) (Nat.cast_nonneg _)

/-- On a non-negative contour, every normalized value is 0 (a silent frame)
or lies in [10, 90]. -/
theorem normalize_vals (arr : List ℚ) (hpos : ∀ v ∈ arr, 0 ≤ v) :
    ∀ w ∈ normalize arr, w = 0 ∨ (10 ≤ w ∧ w ≤ 90) := by
  rcases hfe : arr.filter (fun v => decide (0 < v)) with _ | ⟨x, xs⟩
  · rw [normalize_eq_nil arr hfe]
    intro w hw
    left
    rcases eq_or_lt_of_le (hpos w hw) with h | h
    · exact h.symm
    · rw [List.filter_eq_nil_iff] at hfe
      exact absurd (by simpa using h) (hfe w hw)
  · rw [normalize_eq_map arr x xs hfe]
    intro w hw
    rw [List.mem_map] at hw
    obtain ⟨v, hv, hweq⟩ := hw
    by_cases hv0 : v = 0
    · left
      rw [← hweq, hv0]
      simp [rescale]
    · right
      have hvpos : 0 < v := lt_of_le_of_ne (hpos v hv) (Ne.symm hv0)
      have hvmem : v ∈ x :: xs := by
        rw [← hfe]
        exact List.mem_filter.mpr ⟨hv, by simpa using hvpos⟩
      have hmnv : xs.foldl min x ≤ v := foldl_min_le xs x v hvmem
      have hvmx : v ≤ xs.foldl max x := le_foldl_max xs x v hvmem
      have hmnmx : xs.foldl min x ≤ xs.foldl max x :=
        le_trans (foldl_min_le xs x x (List.mem_cons_self _ _))
          (le_foldl_max xs x x (List.mem_cons_self _ _))
      rw [← hweq, rescale, if_neg hv0]
      unfold gmap
      by_cases hc : xs.foldl max x - xs.foldl min x = 0
      · rw [if_pos hc]
        have hveq : v - xs.foldl min x ≤ 0 := by linarith
        have h1 : (v - xs.foldl min x) / 1 ≤ 0 := by linarith [hveq]
        have h2 : 0 ≤ (v - xs.foldl min x) / 1 := by
          have := sub_nonneg.mpr hmnv
          linarith
        constructor <;> nlinarith
      · rw [if_neg hc]
        have hRpos : 0 < xs.foldl max x - xs.foldl min x :=
          lt_of_le_of_ne (sub_nonneg.mpr hmnmx) (Ne.symm hc)
        have h1 : 0 ≤ (v - xs.foldl min x) / (xs.foldl max x - xs.foldl min x) :=
          div_nonneg (sub_nonneg.mpr hmnv) (le_of_lt hRpos)
        have h2 : (v - xs.foldl min x) / (xs.foldl max x - xs.foldl min x) ≤ 1 :=
          (div_le_one hRpos).mpr (by linarith)
        constructor <;> nlinarith

/-- Trimming keeps a sub-collection of the contour's values. -/
theorem trimPitch_mem (arr : List ℚ) : ∀ v ∈ trimPitch arr, v ∈ arr := by
  intro v hv
  simp only [trimPitch] at hv
  split at hv
  · exact absurd hv (List.not_mem_nil _)
  · exact List.mem_of_mem_drop (List.mem_of_mem_take hv)

/-- An element of a list after one write is the written value or an element
of the original list. -/
theorem mem_set_cases (w : ℚ) :
    ∀ (l : List ℚ) (i : ℕ), ∀ v ∈ l.set i w, v = w ∨ v ∈ l
  | [], _, v, hv => Or.inr hv
  | x :: l, 0, v, hv => by
    rw [List.set_cons_zero, List.mem_cons] at hv
    rcases hv with hv | hv
    · exact Or.inl hv
    · exact Or.inr (List.mem_cons_of_mem _ hv)
  | x :: l, i + 1, v, hv => by
    rw [List.set_cons_succ, List.mem_cons] at hv
    rcases hv with hv | hv
    · exact Or.inr (by rw [hv]; exact List.mem_cons_self _ _)
    · rcases mem_set_cases w l i v hv with h | h
      · exact Or.inl h
      · exact Or.inr (List.mem_cons_of_mem _ h)

/-- A defaulted read returns 0 or an element of the list. -/
theorem getD_zero_or_mem (l : List ℚ) (n : ℕ) :
    l.getD n 0 = 0 ∨ l.getD n 0 ∈ l := by
  by_cases h : n < l.length
  · right
    rw [List.getD_eq_getElem l 0 h]
    exact List.getElem_mem h
  · left
    exact List.getD_eq_default l 0 (by omega)

/-- Replaying the path writes only ever stores zeros or user values. -/
theorem foldl_set_vals (user : List ℚ) :
    ∀ (pth : List (ℕ × ℕ)) (init : List ℚ),
      (∀ v ∈ init, v = 0 ∨ v ∈ user) →
      ∀ v ∈ pth.foldl (fun acc p => acc.set p.1 (user.getD p.2 0)) init,
        v = 0 ∨ v ∈ user
  | [], _, h => h
  | p :: pth, init, h => by
    rw [List.foldl_cons]
    apply foldl_set_vals user pth
    intro v hv
    rcases mem_set_cases _ init p.1 v hv with h1 | h1
    · rw [h1]
      exact getD_zero_or_mem user p.2
    · exact h v h1

/-- Every aligned value is 0 or a value of the user contour. -/
theorem performDTW_vals (ref user : List ℚ) :
    ∀ v ∈ performDTW ref user, v = 0 ∨ v ∈ user := by
  intro v hv
  unfold performDTW at hv
  split at hv
  · exact Or.inl (List.eq_of_mem_replicate hv)
  · exact foldl_set_vals user (dtwPath ref user) (List.replicate ref.length 0)
      (fun w hw => Or.inl (List.eq_of_mem_replicate hw)) v hv

/-- The intended contract of the core analysis, established for the
rational embedding in which an out-of-bounds read yields 0: the outputs
are the trimmed/normalized reference contour and an aligned user contour
of the same length, every value in [0, 100] with non-zero values in
[10, 90].  The source deviates from this model exactly on the
out-of-bounds error path, where it violates the contract — see
`reference_contour_nan` below. -/
theorem analyzeContours_contract (refBuf userBuf : AudioBuffer) :
    (analyzeContours refBuf userBuf).1
        = trimPitch (normalize (extractPitch refBuf)) ∧
      ((analyzeContours refBuf userBuf).2).length
        = ((analyzeContours refBuf userBuf).1).length ∧
      (∀ v ∈ (analyzeContours refBuf userBuf).1,
        (0 ≤ v ∧ v ≤ 100) ∧ (v = 0 ∨ (10 ≤ v ∧ v ≤ 90))) ∧
      (∀ v ∈ (analyzeContours refBuf userBuf).2,
        (0 ≤ v ∧ v ≤ 100) ∧ (v = 0 ∨ (10 ≤ v ∧ v ≤ 90))) := by
  have href : ∀ v ∈ trimPitch (normalize (extractPitch refBuf)),
      v = 0 ∨ (10 ≤ v ∧ v ≤ 90) := fun v hv =>
    normalize_vals (extractPitch refBuf) (extractPitch_nonneg refBuf) v
      (trimPitch_mem _ v hv)
  have huser : ∀ v ∈ trimPitch (normalize (extractPitch userBuf)),
      v = 0 ∨ (10 ≤ v ∧ v ≤ 90) := fun v hv =>
    normalize_vals (extractPitch userBuf) (extractPitch_nonneg userBuf) v
      (trimPitch_mem _ v hv)
  refine ⟨rfl, performDTW_length _ _, ?_, ?_⟩
  · intro v hv
    rcases href v hv with h | h
    · exact ⟨⟨by rw [h], by rw [h]; norm_num⟩, Or.inl h⟩
    · exact ⟨⟨by linarith [h.1], by linarith [h.2]⟩, Or.inr h⟩
  · intro v hv
    rcases performDTW_vals _ _ v hv with h | h
    · exact ⟨⟨by rw [h], by rw [h]; norm_num⟩, Or.inl h⟩
    · rcases huser v h with h2 | h2
      · exact ⟨⟨by rw [h2], by rw [h2]; norm_num⟩, Or.inl h2⟩
      · exact ⟨⟨by linarith [h2.1], by linarith [h2.2]⟩, Or.inr h2⟩

/-- The contract theorem instantiated at concrete buffers (a silent
6-sample reference and an empty user recording at 100 Hz). -/
theorem analyzeContours_contract_witness :
    (analyzeContours ⟨List.replicate 6 0, 100⟩ ⟨[], 100⟩).1
        = trimPitch (normalize (extractPitch ⟨List.replicate 6 0, 100⟩)) ∧
      ((analyzeContours ⟨List.replicate 6 0, 100⟩ ⟨[], 100⟩).2).length
        = ((analyzeContours ⟨List.replicate 6 0, 100⟩ ⟨[], 100⟩).1).length ∧
      (∀ v ∈ (analyzeContours ⟨List.replicate 6 0, 100⟩ ⟨[], 100⟩).1,
        (0 ≤ v ∧ v ≤ 100) ∧ (v = 0 ∨ (10 ≤ v ∧ v ≤ 90))) ∧
      (∀ v ∈ (analyzeContours ⟨List.replicate 6 0, 100⟩ ⟨[], 100⟩).2,
        (0 ≤ v ∧ v ≤ 100) ∧ (v = 0 ∨ (10 ≤ v ∧ v ≤ 90))) :=
  analyzeContours_contract ⟨List.replicate 6 0, 100⟩ ⟨[], 100⟩

/-- Claim C1, refuted on the program's JavaScript semantics: at sample rate
1225 (window 49, hop 24, lag range 2–16) a buffer of 50 samples of 1/2 has
one voiced frame whose every candidate lag reads past the buffer
(index 0 + 48 + p ≥ 50 for each p ≥ 2), so every AMDF sum is NaN, the lag
search never updates `bestPeriod = 0`, the frame's pitch is
`1225 / 0 = Infinity`, and `normalize` maps it to NaN: the reference
contour the analysis produces is `[NaN]`, which fails the claimed
`[0, 100]` range (`0 ≤ NaN` and `NaN ≤ 100` are both false in JavaScript)
and is not the silence sentinel (`NaN === 0` is false). -/
theorem reference_contour_nan :
    refContourJS ⟨List.replicate 50 (1/2 : ℚ), 1225⟩ = [JSVal.nan] ∧
      jsle (JSVal.num 0) JSVal.nan = false ∧
      jsle JSVal.nan (JSVal.num 100) = false ∧
      jseq JSVal.nan (JSVal.num 0) = false := by
  refine ⟨?_, rfl, rfl, rfl⟩
  have h0 : ∀ p ∈ lagRange 2 16,
      amdfJS (List.replicate 50 (1/2 : ℚ)) 0 49 p = JSVal.nan := by
    intro p hp
    have hp2 : 2 ≤ p := by
      have := List.mem_range'_1.mp hp
      omega
    exact amdfJS_nan _ 0 49 p 48 (by decide) (by simp; omega)
  have hbest : bestLagJS (List.replicate 50 (1/2 : ℚ)) 0 49 2 16 = 0 := by
    unfold bestLagJS
    rw [foldl_lagStepJS_const (List.replicate 50 (1/2 : ℚ)) 0 49 (lagRange 2 16) _ h0]
  have hen : frameEnergyJS (List.replicate 50 (1/2 : ℚ)) 0 49 = JSVal.num (26/49) := by
    norm_num [frameEnergyJS, subIdx, List.range', jsread, jsadd, jsabs,
      List.getElem?_replicate, jsdiv, abs_eq_max_neg, max_def]
  have hfp : framePitchJS (List.replicate 50 (1/2 : ℚ)) 1225 0 49 2 16
      = JSVal.inf := by
    unfold framePitchJS
    rw [hen, hbest]
    norm_num [jslt, jsdiv]
  have hex : extractPitchJS ⟨List.replicate 50 (1/2 : ℚ), 1225⟩ = [JSVal.inf] := by
    show (frameStarts 50 49 24 0).map
      (fun i => framePitchJS (List.replicate 50 (1/2 : ℚ)) 1225 i 49 2 16)
      = [JSVal.inf]
    rw [show frameStarts 50 49 24 0 = [0] from by decide, List.map_cons,
      List.map_nil, hfp]
  have hnorm : normalizeJS [JSVal.inf] = [JSVal.nan] := by
    norm_num [normalizeJS, jslt, jssub, jsneg, jsadd, jsmul, jsdiv, jseq,
      List.filter]
  have htrim : trimPitchJS [JSVal.nan] = [JSVal.nan] := by
    norm_num [trimPitchJS, leadZeroCountJS, jseq]
  unfold refContourJS
  rw [hex, hnorm, htrim]

end PronunciationCoach
